import Mathlib

/-!
A verification development for the gomazes repository.

The generator (`createMaze`), the renderer (`formatMaze`) and the navigator
(`noWallBelow` / `noWallAbove` / `noWallOnRight` / `noWallOnLeft`) are shallowly
embedded below, following `src/bmaze.go` and the navigator code in the gui
source.  Randomness (`rand.Intn`, `rand.Shuffle`) is modelled by an explicit
oracle: the starting cell is a parameter, every call to `shuffleDirection`
consumes the next entry of a list of direction orders (an exhausted list
yields the unshuffled `[N, S, E, W]`, itself a possible shuffle outcome), and
the one `rand.Shuffle` applied to the solution-path buffer is a caller-supplied
reordering function.  Any concrete instantiation whose lists are permutations
is an outcome the Go program can produce.
-/

set_option maxHeartbeats 1000000

namespace Gomazes

/-- Direction code N (bmaze.go): 0001. -/
def N : Nat := 1

/-- Direction code S (bmaze.go): 0010. -/
def S : Nat := 2

/-- Direction code E (bmaze.go): 0100. -/
def E : Nat := 4

/-- Direction code W (bmaze.go): 1000. -/
def W : Nat := 8

/-- The list of the four direction codes. -/
def Dirs : List Nat := [N, S, E, W]

/-- The `oppositeDirections` map of `createMaze`; a missing key yields 0,
as a Go map lookup does. -/
def oppositeDirections (d : Nat) : Nat :=
  if d = N then S
  else if d = S then N
  else if d = E then W
  else if d = W then E
  else 0

/-- `moveTo` from bmaze.go.  Note the source's convention: E decreases x and
W increases x. -/
def moveTo (posX posY : Int) (direction : Nat) : Int × Int :=
  if direction = N then (posX, posY - 1)
  else if direction = S then (posX, posY + 1)
  else if direction = E then (posX - 1, posY)
  else if direction = W then (posX + 1, posY)
  else (-1, -1)

/-- Read `maze[y][x]`.  The Go code only indexes in bounds (a violation would
panic); out-of-range reads return 0 here. -/
def getCell (m : List (List Nat)) (x y : Int) : Nat :=
  if 0 ≤ x ∧ 0 ≤ y then (m.getD y.toNat []).getD x.toNat 0 else 0

/-- Write `maze[y][x] = v`.  The Go code only writes in bounds (a violation
would panic); out-of-range writes are a no-op here. -/
def setCell (m : List (List Nat)) (x y : Int) (v : Nat) : List (List Nat) :=
  if 0 ≤ x ∧ 0 ≤ y then m.set y.toNat ((m.getD y.toNat []).set x.toNat v) else m

/-- The mutable state of `createMaze`'s carving loop.  The wall stack is kept
head-first: Go appends to and pops from the tail, here we push to and pop from
the head, which realizes the same LIFO discipline. -/
structure GenState where
  maze : List (List Nat)
  walls : List (Int × Int × Nat)
  paths : List (Int × Int)
  addPaths : Bool
  shuffles : List (List Nat)
deriving Repr, DecidableEq

/-- Consume the next `shuffleDirection` outcome from the oracle. -/
def nextShuffle : List (List Nat) → List Nat × List (List Nat)
  | [] => ([N, S, E, W], [])
  | s :: rest => (s, rest)

/-- Push the walls `(x, y, d)` for `d` in `dirs` onto the stack, in order, so
that the last direction of `dirs` ends on top — exactly the pop order of the
Go slice appended in order. -/
def pushDirs (x y : Int) (dirs : List Nat) (walls : List (Int × Int × Nat)) :
    List (Int × Int × Nat) :=
  dirs.foldl (fun ws d => (x, y, d) :: ws) walls

/-- `getWallInfos` from bmaze.go: pop the most recently pushed wall. -/
def getWallInfos (walls : List (Int × Int × Nat)) :
    Option ((Int × Int × Nat) × List (Int × Int × Nat)) :=
  match walls with
  | [] => none
  | wl :: rest => some (wl, rest)

/-- When the exit is reached: push, for each recorded path cell in order, its
four (shuffled) directions. -/
def pushPaths (pp : List (Int × Int)) (walls : List (Int × Int × Nat))
    (shuffles : List (List Nat)) : List (Int × Int × Nat) × List (List Nat) :=
  match pp with
  | [] => (walls, shuffles)
  | p :: rest =>
    let sp := nextShuffle shuffles
    pushPaths rest (pushDirs p.1 p.2 sp.1 walls) sp.2

/-- The two OR-updates of a successful carve: open the wall `d` of `(x, y)`
and the opposite wall of the neighbor `moveTo x y d`. -/
def carve (m : List (List Nat)) (x y : Int) (d : Nat) : List (List Nat) :=
  setCell (setCell m x y (getCell m x y ||| d)) (moveTo x y d).1 (moveTo x y d).2
    (getCell (setCell m x y (getCell m x y ||| d)) (moveTo x y d).1 (moveTo x y d).2 |||
      oppositeDirections d)

/-- Append the newly carved cell to the solution-path buffer while
`addPaths` still holds. -/
def recordPath (addPaths : Bool) (paths : List (Int × Int)) (nX nY : Int) :
    List (Int × Int) :=
  if addPaths then paths ++ [(nX, nY)] else paths

/-- The source's growth-point override: a new cell inside the 3×3 block near
the bottom-right corner is replaced by the entrance cell. -/
def redirectCell (width height nX nY : Int) : Int × Int :=
  if (width - 4 ≤ nX ∧ nX ≤ width - 2) ∧ (height - 4 ≤ nY ∧ nY ≤ height - 2) then
    (width / 2, 0)
  else (nX, nY)

/-- One iteration of `createMaze`'s `for len(walls) > 0` loop (a no-op on an
empty stack). -/
def genStep (width height : Int) (pathPerm : List (Int × Int) → List (Int × Int)) :
    GenState → GenState
  | ⟨maze, [], paths, addPaths, shuffles⟩ => ⟨maze, [], paths, addPaths, shuffles⟩
  | ⟨maze, (x, y, d) :: rest, paths, addPaths, shuffles⟩ =>
    if 0 ≤ (moveTo x y d).2 ∧ (moveTo x y d).2 < height ∧
        0 ≤ (moveTo x y d).1 ∧ (moveTo x y d).1 < width ∧
        getCell maze (moveTo x y d).1 (moveTo x y d).2 = 0 then
      if (moveTo x y d).1 = width / 2 ∧ (moveTo x y d).2 = height - 1 then
        { maze :=
            setCell (carve maze x y d) (moveTo x y d).1 (moveTo x y d).2
              (getCell (carve maze x y d) (moveTo x y d).1 (moveTo x y d).2 ||| S)
          walls :=
            (pushPaths
              (pathPerm (recordPath addPaths paths (moveTo x y d).1 (moveTo x y d).2))
              rest shuffles).1
          paths := []
          addPaths := false
          shuffles :=
            (pushPaths
              (pathPerm (recordPath addPaths paths (moveTo x y d).1 (moveTo x y d).2))
              rest shuffles).2 }
      else
        { maze := carve maze x y d
          walls :=
            pushDirs (redirectCell width height (moveTo x y d).1 (moveTo x y d).2).1
              (redirectCell width height (moveTo x y d).1 (moveTo x y d).2).2
              (nextShuffle shuffles).1 rest
          paths := recordPath addPaths paths (moveTo x y d).1 (moveTo x y d).2
          addPaths := addPaths
          shuffles := (nextShuffle shuffles).2 }
    else
      ⟨maze, rest, paths, addPaths, shuffles⟩

/-- Run the carving loop for at most `fuel` iterations, stopping when the
wall stack is empty. -/
def genLoop (width height : Int) (pathPerm : List (Int × Int) → List (Int × Int)) :
    Nat → GenState → GenState
  | 0, st => st
  | n + 1, st =>
    match st.walls with
    | [] => st
    | _ :: _ => genLoop width height pathPerm n (genStep width height pathPerm st)

/-- The state of `createMaze` just before its loop: an all-zero grid, and the
four walls of the starting cell then the four walls of the entrance cell
pushed with the same (single) initial shuffle, as in the source. -/
def initState (width height startX startY : Int) (shuffles : List (List Nat)) :
    GenState :=
  let sp := nextShuffle shuffles
  { maze := List.replicate height.toNat (List.replicate width.toNat 0)
    walls := pushDirs (width / 2) 0 sp.1 (pushDirs startX startY sp.1 [])
    paths := []
    addPaths := true
    shuffles := sp.2 }

/-- An iteration budget provably sufficient for the loop to drain its stack
(see the termination theorem below). -/
def genFuel (width height : Int) : Nat := 8 + 8 * (width.toNat * height.toNat)

/-- The full run of `createMaze`'s loop. -/
def createMazeRun (width height startX startY : Int) (shuffles : List (List Nat))
    (pathPerm : List (Int × Int) → List (Int × Int)) : GenState :=
  genLoop width height pathPerm (genFuel width height)
    (initState width height startX startY shuffles)

/-- `createMaze` from bmaze.go, with the randomness oracle made explicit. -/
def createMaze (width height startX startY : Int) (shuffles : List (List Nat))
    (pathPerm : List (Int × Int) → List (Int × Int)) : List (List Nat) :=
  (createMazeRun width height startX startY shuffles pathPerm).maze

/-! ## The renderer (`formatMaze`, bmaze.go) -/

/-- The first character written for a cell: open space when its south wall is
open, `'_'` when closed. -/
def southChar (cell : Nat) : Char :=
  if cell &&& S ≠ 0 then ' ' else '_'

/-- The second character written for a cell, looking at the cell one step to
the east on screen (`maze[y][x+1]`, the `W` neighbor in the source's
convention).  When the `W` bit is unset the neighbor is not read at all. -/
def boundChar (cell next : Nat) : Char :=
  if cell &&& W ≠ 0 then
    if (cell ||| next) &&& S ≠ 0 then ' ' else '_'
  else '|'

/-- The two characters per cell of one row, in order.  For the last cell the
source would read `maze[y][x+1]` out of range (a Go panic) whenever its `W`
bit is set; here the phantom neighbor reads as 0, and the theorems about the
renderer assume (or prove) that the `W` bit of a rightmost cell is unset, on
which domain this function is exact. -/
def rowChars : List Nat → List Char
  | [] => []
  | c :: rest => southChar c :: boundChar c (rest.getD 0 0) :: rowChars rest

/-- One rendered maze row: a left border bar then two characters per cell. -/
def formatLine (row : List Nat) : List Char :=
  '|' :: rowChars row

/-- The top border line: `" " ++ "_" * (2*width - 1)` with the two characters
above the entrance cell replaced by spaces. -/
def topLine (width : Nat) : List Char :=
  let t := ' ' :: List.replicate (2 * width - 1) '_'
  t.take width ++ [' ', ' '] ++ t.drop (width + 1)

/-- `formatMaze` from bmaze.go, as the list of rendered lines (the Go code
joins them with a newline after each). -/
def formatMaze (m : List (List Nat)) (width : Nat) : List (List Char) :=
  topLine width :: m.map formatLine

/-! ## The navigator (gui source) -/

/-- The outcome of one navigator check: the cursor may move, is blocked, or
the program signals the fatal status 3 because a line read failed. -/
inductive MoveStatus where
  | moved : MoveStatus
  | blocked : MoveStatus
  | fatal : MoveStatus
deriving Repr, DecidableEq

/-- `v.Line(i)` of the gocui view holding the rendered buffer: an error
(modelled as `none`) when the index is outside the buffer's lines. -/
def lineAt (buf : List (List Char)) (i : Nat) : Option (List Char) :=
  buf[i]?

/-- `l[i]` on a buffer line.  The Go code never indexes a line out of range
for the cursors considered in the theorems below; out-of-range reads default
to a space here. -/
def charAt (l : List Char) (i : Nat) : Char :=
  l.getD i ' '

/-- `noWallBelow`, with the fatal status made explicit.  `mazeheight` is the
global `MAZEHEIGHT`. -/
def noWallBelow (mazeheight : Nat) (buf : List (List Char)) (cx cy : Nat) :
    MoveStatus :=
  match lineAt buf cy with
  | none => .fatal
  | some l =>
    if charAt l cx = '_' then .blocked
    else if mazeheight < cy + 1 then .blocked
    else
      match lineAt buf (cy + 1) with
      | none => .fatal
      | some l2 => if charAt l2 cx = '|' then .blocked else .moved

/-- `noWallAbove`.  The Go guard `(cy - 1) < 0` becomes `cy = 0` for the
non-negative view cursor. -/
def noWallAbove (buf : List (List Char)) (cx cy : Nat) : MoveStatus :=
  if cy = 0 then .blocked
  else
    match lineAt buf (cy - 1) with
    | none => .fatal
    | some l =>
      if charAt l cx = '_' ∨ charAt l cx = '|' then .blocked else .moved

/-- `noWallOnRight`.  `mazewidth` is the global `MAZEWIDTH`. -/
def noWallOnRight (mazewidth : Nat) (buf : List (List Char)) (cx cy : Nat) :
    MoveStatus :=
  if 2 * mazewidth - 1 < cx + 1 then .blocked
  else
    match lineAt buf cy with
    | none => .fatal
    | some l =>
      if (cy = 0 ∧ charAt l (cx + 1) = '_') ∨ charAt l (cx + 1) = '|' then .blocked
      else .moved

/-- `noWallOnLeft`.  The Go guard `(cx - 1) < 0` becomes `cx = 0`. -/
def noWallOnLeft (buf : List (List Char)) (cx cy : Nat) : MoveStatus :=
  if cx = 0 then .blocked
  else
    match lineAt buf cy with
    | none => .fatal
    | some l =>
      if (cy = 0 ∧ charAt l (cx - 1) = '_') ∨ charAt l (cx - 1) = '|' then .blocked
      else .moved

/-- `moveDown`: the cursor advances one row exactly when `noWallBelow`
reports an open way. -/
def moveDown (mazeheight : Nat) (buf : List (List Char)) (cx cy : Nat) :
    (Nat × Nat) × MoveStatus :=
  match noWallBelow mazeheight buf cx cy with
  | .moved => ((cx, cy + 1), .moved)
  | s => ((cx, cy), s)

/-- `moveUp`. -/
def moveUp (buf : List (List Char)) (cx cy : Nat) : (Nat × Nat) × MoveStatus :=
  match noWallAbove buf cx cy with
  | .moved => ((cx, cy - 1), .moved)
  | s => ((cx, cy), s)

/-- `moveRight`. -/
def moveRight (mazewidth : Nat) (buf : List (List Char)) (cx cy : Nat) :
    (Nat × Nat) × MoveStatus :=
  match noWallOnRight mazewidth buf cx cy with
  | .moved => ((cx + 1, cy), .moved)
  | s => ((cx, cy), s)

/-- `moveLeft`. -/
def moveLeft (buf : List (List Char)) (cx cy : Nat) : (Nat × Nat) × MoveStatus :=
  match noWallOnLeft buf cx cy with
  | .moved => ((cx - 1, cy), .moved)
  | s => ((cx, cy), s)

/-! ## Derived notions used by the specification's properties -/

/-- Read a cell with natural-number coordinates. -/
def getCellN (m : List (List Nat)) (x y : Nat) : Nat :=
  (m.getD y []).getD x 0

/-- The vertical edge between `(x, y)` and `(x, y+1)` is carved open: both
facing bits are set. -/
def openSouth (m : List (List Nat)) (x y : Nat) : Bool :=
  (getCellN m x y &&& S != 0) && (getCellN m x (y + 1) &&& N != 0)

/-- The horizontal edge between `(x, y)` and `(x+1, y)` is carved open: both
facing bits are set (recall `W` points to `x+1` in the source's convention,
and `E` points back). -/
def openEast (m : List (List Nat)) (x y : Nat) : Bool :=
  (getCellN m x y &&& W != 0) && (getCellN m (x + 1) y &&& E != 0)

/-- The number of open undirected internal edges of a `w × h` grid. -/
def openEdgeCount (m : List (List Nat)) (w h : Nat) : Nat :=
  ((List.range h).map fun y =>
    ((List.range w).map fun x =>
      (if y + 1 < h then (if openSouth m x y then 1 else 0) else 0) +
      (if x + 1 < w then (if openEast m x y then 1 else 0) else 0)).sum).sum

/-- The cells reachable in one step from `c` through open edges. -/
def openNeighbors (m : List (List Nat)) (w h : Nat) (c : Nat × Nat) :
    List (Nat × Nat) :=
  (if c.2 + 1 < h ∧ openSouth m c.1 c.2 then [(c.1, c.2 + 1)] else []) ++
  (if 1 ≤ c.2 ∧ openSouth m c.1 (c.2 - 1) then [(c.1, c.2 - 1)] else []) ++
  (if c.1 + 1 < w ∧ openEast m c.1 c.2 then [(c.1 + 1, c.2)] else []) ++
  (if 1 ≤ c.1 ∧ openEast m (c.1 - 1) c.2 then [(c.1 - 1, c.2)] else [])

/-- Saturate a list of cells under `openNeighbors` for `n` rounds. -/
def reachIter (m : List (List Nat)) (w h : Nat) :
    Nat → List (Nat × Nat) → List (Nat × Nat)
  | 0, s => s
  | n + 1, s => reachIter m w h n ((s ++ s.flatMap (openNeighbors m w h)).dedup)

/-- The cells a traversal of the carved passages can reach from the entrance
cell `(w / 2, 0)`. -/
def reachList (m : List (List Nat)) (w h : Nat) : List (Nat × Nat) :=
  reachIter m w h (w * h) [(w / 2, 0)]

/-! ## Shape and value invariants of a grid -/

/-- `(x, y)` is inside a `w × h` grid. -/
def inB (w h : Int) (x y : Int) : Prop :=
  0 ≤ x ∧ x < w ∧ 0 ≤ y ∧ y < h

/-- The grid has `h` rows of `w` cells each. -/
def dimsOk (w h : Int) (m : List (List Nat)) : Prop :=
  m.length = h.toNat ∧ ∀ i : Nat, i < h.toNat → (m.getD i []).length = w.toNat

/-- Every cell value is a bitmask over the four direction flags. -/
def cellsBound (m : List (List Nat)) : Prop :=
  ∀ i j : Nat, (m.getD i []).getD j 0 < 16

/-- The passage-symmetry invariant: every set direction bit points at an
in-grid neighbor carrying the opposite bit, except the forced South bit of
the exit cell `(w / 2, h - 1)`. -/
def MazeInv (w h : Int) (m : List (List Nat)) : Prop :=
  ∀ x y : Int, ∀ d ∈ Dirs, inB w h x y → getCell m x y &&& d ≠ 0 →
    (inB w h (moveTo x y d).1 (moveTo x y d).2 ∧
      getCell m (moveTo x y d).1 (moveTo x y d).2 &&& oppositeDirections d ≠ 0) ∨
    (x = w / 2 ∧ y = h - 1 ∧ d = S)

/-- The number of cells still holding 0 (unvisited). -/
def zeroCount (m : List (List Nat)) : Nat :=
  (m.map (List.countP (fun c => c == 0))).sum

/-- The loop measure. -/
def genMeasure (st : GenState) : Nat :=
  st.walls.length + 8 * zeroCount st.maze + 4 * st.paths.length

/-- Every oracle entry is a shuffle of the four directions, length-wise. -/
def shuffles4 (sh : List (List Nat)) : Prop :=
  ∀ s ∈ sh, s.length = 4

/-- The value the navigator sends on `statusGame` for each outcome: the
fatal status is the distinct code 3, a blocked or successful move sends
nothing from the wall checks themselves. -/
def statusGameSignal : MoveStatus → Option Nat
  | MoveStatus.fatal => some 3
  | _ => none

/-- A concrete, realizable random outcome for `createMaze 4 4` with starting
cell (3, 3): each entry is a permutation of the four directions, consumed in
order (later shuffles fall back to the identity order).  Chosen so that the
first carves run from the entrance straight to the exit along the right
edge, after which the three cells (0,0), (0,1), (1,1) can only be reached
through cells inside the redirect block — which never push their own
walls — and therefore stay unvisited. -/
def pocketShuffles : List (List Nat) :=
  [[N, S, E, W], [N, E, W, S], [N, E, W, S], [N, E, W, S], [N, S, W, E]]

/-- The renderer/navigator round-trip property for a `w × h` grid `m`: from
the rendered cursor position `(2x+1, y+1)` of any cell, a move toward an
adjacent in-grid cell reports `moved` exactly when the grid encodes that
edge as open (both facing bits set) and `blocked` exactly when it does
not. -/
def RoundTrip (w h : Nat) (m : List (List Nat)) : Prop :=
  ∀ x y : Nat, x < w → y < h →
    (y + 1 < h →
      (((moveDown h (formatMaze m w) (2 * x + 1) (y + 1)).2 = MoveStatus.moved) ↔
        openSouth m x y = true) ∧
      (((moveDown h (formatMaze m w) (2 * x + 1) (y + 1)).2 = MoveStatus.blocked) ↔
        ¬ openSouth m x y = true)) ∧
    (1 ≤ y →
      (((moveUp (formatMaze m w) (2 * x + 1) (y + 1)).2 = MoveStatus.moved) ↔
        openSouth m x (y - 1) = true) ∧
      (((moveUp (formatMaze m w) (2 * x + 1) (y + 1)).2 = MoveStatus.blocked) ↔
        ¬ openSouth m x (y - 1) = true)) ∧
    (x + 1 < w →
      (((moveRight w (formatMaze m w) (2 * x + 1) (y + 1)).2 = MoveStatus.moved) ↔
        openEast m x y = true) ∧
      (((moveRight w (formatMaze m w) (2 * x + 1) (y + 1)).2 = MoveStatus.blocked) ↔
        ¬ openEast m x y = true)) ∧
    (1 ≤ x →
      (((moveLeft (formatMaze m w) (2 * x + 1) (y + 1)).2 = MoveStatus.moved) ↔
        openEast m (x - 1) y = true) ∧
      (((moveLeft (formatMaze m w) (2 * x + 1) (y + 1)).2 = MoveStatus.blocked) ↔
        ¬ openEast m (x - 1) y = true))

/-- No cell of the rightmost column has its `W` bit set (so the renderer's
unchecked read of `maze[y][x+1]` never goes out of range). -/
def RightColumnClosed (w h : Int) (m : List (List Nat)) : Prop :=
  ∀ y : Int, 0 ≤ y → y < h → getCell m (w - 1) y &&& W = 0

/-- Every rendered row line ends (at column `2*w`, the last of its `2*w+1`
characters) with the vertical wall bar. -/
def RowLinesEndBar (m : List (List Nat)) (w : Nat) : Prop :=
  ∀ i : Nat, i < m.length → charAt ((formatMaze m w).getD (i + 1) []) (2 * w) = '|'

/-- Every pending wall entry names a cell inside the grid. -/
def wallsOk (w h : Int) (walls : List (Int × Int × Nat)) : Prop :=
  ∀ e ∈ walls, inB w h e.1 e.2.1

/-- Every recorded path cell is inside the grid. -/
def pathsOk (w h : Int) (paths : List (Int × Int)) : Prop :=
  ∀ p ∈ paths, inB w h p.1 p.2

/-- The loop invariant of `createMaze`. -/
def StateInv (w h : Int) (st : GenState) : Prop :=
  dimsOk w h st.maze ∧ cellsBound st.maze ∧ wallsOk w h st.walls ∧
    pathsOk w h st.paths ∧ MazeInv w h st.maze

/-! ## Small facts about directions and bits -/

theorem mem_Dirs_iff {d : Nat} : d ∈ Dirs ↔ d = N ∨ d = S ∨ d = E ∨ d = W := by
  simp [Dirs]

theorem opp_mem_Dirs {d : Nat} (hd : d ∈ Dirs) : oppositeDirections d ∈ Dirs := by
  rcases mem_Dirs_iff.1 hd with h | h | h | h <;> subst h <;> decide

theorem opp_opp {d : Nat} (hd : d ∈ Dirs) :
    oppositeDirections (oppositeDirections d) = d := by
  rcases mem_Dirs_iff.1 hd with h | h | h | h <;> subst h <;> decide

theorem dir_lt16 {d : Nat} (hd : d ∈ Dirs) : d < 16 := by
  rcases mem_Dirs_iff.1 hd with h | h | h | h <;> subst h <;> decide

theorem dir_ne_zero {d : Nat} (hd : d ∈ Dirs) : d ≠ 0 := by
  rcases mem_Dirs_iff.1 hd with h | h | h | h <;> subst h <;> decide

theorem dir_and_self {d : Nat} (hd : d ∈ Dirs) : d &&& d ≠ 0 := by
  rcases mem_Dirs_iff.1 hd with h | h | h | h <;> subst h <;> decide

theorem dir_and_eq {d e : Nat} (hd : d ∈ Dirs) (he : e ∈ Dirs)
    (h : d &&& e ≠ 0) : e = d := by
  rcases mem_Dirs_iff.1 hd with h1 | h1 | h1 | h1 <;>
    rcases mem_Dirs_iff.1 he with h2 | h2 | h2 | h2 <;>
      subst h1 <;> subst h2 <;> first | rfl | exact absurd rfl h

theorem eq_zero_of_lor_left {a b : Nat} (h : a ||| b = 0) : a = 0 := by
  apply Nat.eq_of_testBit_eq
  intro i
  have h2 := congrArg (fun n => n.testBit i) h
  simp only [Nat.testBit_or, Nat.zero_testBit] at h2
  simp only [Nat.zero_testBit]
  exact (Bool.or_eq_false_iff.1 h2).1

theorem eq_zero_of_lor_right {a b : Nat} (h : a ||| b = 0) : b = 0 := by
  apply Nat.eq_of_testBit_eq
  intro i
  have h2 := congrArg (fun n => n.testBit i) h
  simp only [Nat.testBit_or, Nat.zero_testBit] at h2
  simp only [Nat.zero_testBit]
  exact (Bool.or_eq_false_iff.1 h2).2

theorem or_and_ne_zero_iff (a b e : Nat) :
    ((a ||| b) &&& e ≠ 0) ↔ (a &&& e ≠ 0 ∨ b &&& e ≠ 0) := by
  rw [Nat.and_distrib_right]
  constructor
  · intro h
    by_contra hc
    push_neg at hc
    rw [hc.1, hc.2] at h
    exact h rfl
  · intro h hz
    rcases h with h | h
    · exact h (eq_zero_of_lor_left hz)
    · exact h (eq_zero_of_lor_right hz)

theorem bits16_or_lt : ∀ a < 16, ∀ b < 16, a ||| b < 16 := by decide

theorem lor_ne_zero_right {a b : Nat} (hb : b ≠ 0) : a ||| b ≠ 0 := by
  intro h
  exact hb (eq_zero_of_lor_right h)

/-! ## Facts about `moveTo` -/

theorem moveTo_of_not_mem {x y : Int} {d : Nat} (hd : d ∉ Dirs) :
    moveTo x y d = (-1, -1) := by
  have h := mem_Dirs_iff.not.1 hd
  push_neg at h
  simp [moveTo, h.1, h.2.1, h.2.2.1, h.2.2.2]

theorem dir_mem_of_carve {x y : Int} {d : Nat} (h : 0 ≤ (moveTo x y d).2) :
    d ∈ Dirs := by
  by_contra hd
  rw [moveTo_of_not_mem hd] at h
  exact absurd h (by norm_num)

theorem moveTo_ne_self {x y : Int} {d : Nat} (hd : d ∈ Dirs) :
    moveTo x y d ≠ (x, y) := by
  rcases mem_Dirs_iff.1 hd with h | h | h | h <;> subst h <;>
    simp only [moveTo, N, S, E, W, Prod.ext_iff, not_and] <;> norm_num

theorem moveTo_opp {x y : Int} {d : Nat} (hd : d ∈ Dirs) :
    moveTo (moveTo x y d).1 (moveTo x y d).2 (oppositeDirections d) = (x, y) := by
  rcases mem_Dirs_iff.1 hd with h | h | h | h <;> subst h <;>
    simp only [moveTo, oppositeDirections, N, S, E, W, Prod.ext_iff] <;> norm_num

/-! ## Facts about `getCell` and `setCell` -/

theorem getCell_lt16 {m : List (List Nat)} (hcb : cellsBound m) (x y : Int) :
    getCell m x y < 16 := by
  unfold getCell
  split
  · exact hcb y.toNat x.toNat
  · decide

theorem inB_range {w h x y : Int} {m : List (List Nat)} (hd : dimsOk w h m)
    (hb : inB w h x y) :
    0 ≤ x ∧ 0 ≤ y ∧ y.toNat < m.length ∧ x.toNat < (m.getD y.toNat []).length := by
  obtain ⟨hlen, hrow⟩ := hd
  obtain ⟨hx0, hxw, hy0, hyh⟩ := hb
  have hy : y.toNat < h.toNat := by omega
  refine ⟨hx0, hy0, by omega, ?_⟩
  rw [hrow y.toNat hy]
  omega

theorem getD_set_self {α : Type} {l : List α} {i : Nat} (a d : α)
    (h : i < l.length) : (l.set i a).getD i d = a := by
  rw [List.getD_eq_getElem?_getD, List.getElem?_set_self h]
  rfl

theorem getD_set_ne {α : Type} {l : List α} {i j : Nat} (a d : α)
    (h : i ≠ j) : (l.set i a).getD j d = l.getD j d := by
  rw [List.getD_eq_getElem?_getD, List.getElem?_set_ne h,
    ← List.getD_eq_getElem?_getD]

theorem getD_set_oob {α : Type} {l : List α} {i : Nat} (a d : α)
    (h : l.length ≤ i) : (l.set i a).getD i d = l.getD i d := by
  rw [List.set_eq_of_length_le h]

theorem getCell_setCell_self {m : List (List Nat)} {x y : Int} (v : Nat)
    (hx : 0 ≤ x) (hy : 0 ≤ y) (hyl : y.toNat < m.length)
    (hxl : x.toNat < (m.getD y.toNat []).length) :
    getCell (setCell m x y v) x y = v := by
  unfold getCell setCell
  rw [if_pos ⟨hx, hy⟩, if_pos ⟨hx, hy⟩, getD_set_self _ _ hyl,
    getD_set_self _ _ hxl]

theorem getCell_setCell_ne {m : List (List Nat)} {x y x' y' : Int} (v : Nat)
    (hne : ¬(x' = x ∧ y' = y)) :
    getCell (setCell m x y v) x' y' = getCell m x' y' := by
  unfold getCell setCell
  by_cases hg : 0 ≤ x ∧ 0 ≤ y
  · rw [if_pos hg]
    by_cases hg' : 0 ≤ x' ∧ 0 ≤ y'
    · rw [if_pos hg', if_pos hg']
      by_cases hyy : y'.toNat = y.toNat
      · have hy'y : y' = y := by omega
        by_cases hyl : y.toNat < m.length
        · rw [hyy, getD_set_self _ _ hyl]
          have hxx : x'.toNat ≠ x.toNat := by
            intro hc
            exact hne ⟨by omega, hy'y⟩
          rw [getD_set_ne _ _ (by omega)]
        · rw [hyy, getD_set_oob _ _ (by omega)]
      · rw [getD_set_ne _ _ (by omega)]
    · rw [if_neg hg', if_neg hg']
  · rw [if_neg hg]

theorem setCell_length {m : List (List Nat)} (x y : Int) (v : Nat) :
    (setCell m x y v).length = m.length := by
  unfold setCell
  by_cases hg : 0 ≤ x ∧ 0 ≤ y
  · rw [if_pos hg, List.length_set]
  · rw [if_neg hg]

theorem dimsOk_setCell {w h : Int} {m : List (List Nat)} (x y : Int) (v : Nat)
    (hd : dimsOk w h m) : dimsOk w h (setCell m x y v) := by
  obtain ⟨hlen, hrow⟩ := hd
  refine ⟨by rw [setCell_length, hlen], ?_⟩
  intro i hi
  unfold setCell
  by_cases hg : 0 ≤ x ∧ 0 ≤ y
  · rw [if_pos hg]
    by_cases hiy : i = y.toNat
    · subst hiy
      by_cases hil : y.toNat < m.length
      · rw [getD_set_self _ _ hil, List.length_set]
        exact hrow y.toNat hi
      · rw [getD_set_oob _ _ (by omega)]
        exact hrow y.toNat hi
    · rw [getD_set_ne _ _ (by omega)]
      exact hrow i hi
  · rw [if_neg hg]
    exact hrow i hi

theorem cellsBound_setCell {m : List (List Nat)} {x y : Int} {v : Nat}
    (hv : v < 16) (hcb : cellsBound m) : cellsBound (setCell m x y v) := by
  intro i j
  unfold setCell
  by_cases hg : 0 ≤ x ∧ 0 ≤ y
  · rw [if_pos hg]
    by_cases hiy : i = y.toNat
    · subst hiy
      by_cases hil : y.toNat < m.length
      · rw [getD_set_self _ _ hil]
        by_cases hjx : j = x.toNat
        · subst hjx
          by_cases hjl : x.toNat < (m.getD y.toNat []).length
          · rw [getD_set_self _ _ hjl]
            exact hv
          · rw [getD_set_oob _ _ (by omega)]
            exact hcb y.toNat x.toNat
        · rw [getD_set_ne _ _ (by omega)]
          exact hcb y.toNat j
      · rw [getD_set_oob _ _ (by omega)]
        exact hcb y.toNat j
    · rw [getD_set_ne _ _ (by omega)]
      exact hcb i j
  · rw [if_neg hg]
    exact hcb i j

/-! ## Termination of the carving loop

The measure `walls + 8 * (number of still-closed cells) + 4 * paths` strictly
decreases at every iteration: a popped wall that carves nothing costs one
stack entry; a successful carve turns a zero cell nonzero and pushes four
walls; reaching the exit converts the recorded paths into at most four walls
each while clearing the buffer. -/

theorem countP_set_le (l : List Nat) (i : Nat) (v : Nat) (hv : v ≠ 0) :
    (l.set i v).countP (fun c => c == 0) ≤ l.countP (fun c => c == 0) := by
  have hv' : (v == 0) = false := by simpa using hv
  induction l generalizing i with
  | nil => simp
  | cons a t ih =>
    cases i with
    | zero =>
      simp [List.set, List.countP_cons, hv']
    | succ n =>
      simp only [List.set, List.countP_cons]
      have := ih n
      omega

theorem countP_set_lt (l : List Nat) (i : Nat) (v : Nat) (hv : v ≠ 0)
    (hi : i < l.length) (h0 : l.getD i 0 = 0) :
    (l.set i v).countP (fun c => c == 0) < l.countP (fun c => c == 0) := by
  have hv' : (v == 0) = false := by simpa using hv
  induction l generalizing i with
  | nil => simp at hi
  | cons a t ih =>
    cases i with
    | zero =>
      have ha : a = 0 := by simpa using h0
      subst ha
      simp [List.set, List.countP_cons, hv']
    | succ n =>
      simp only [List.set, List.countP_cons]
      have := ih n (by simpa using hi) (by simpa using h0)
      omega

theorem zeroCount_cons (r : List Nat) (t : List (List Nat)) :
    zeroCount (r :: t) = r.countP (fun c => c == 0) + zeroCount t := by
  simp [zeroCount]

theorem zeroCount_set_row (m : List (List Nat)) (i : Nat) (r : List Nat)
    (hi : i < m.length) :
    zeroCount (m.set i r) + (m.getD i []).countP (fun c => c == 0) =
      zeroCount m + r.countP (fun c => c == 0) := by
  induction m generalizing i with
  | nil => simp at hi
  | cons a t ih =>
    cases i with
    | zero =>
      simp only [List.set, zeroCount_cons, List.getD_cons_zero]
      omega
    | succ n =>
      simp only [List.set, zeroCount_cons, List.getD_cons_succ]
      have := ih n (by simpa using hi)
      omega

theorem zeroCount_setCell_le (m : List (List Nat)) (x y : Int) (v : Nat)
    (hv : v ≠ 0) : zeroCount (setCell m x y v) ≤ zeroCount m := by
  unfold setCell
  by_cases hg : 0 ≤ x ∧ 0 ≤ y
  · rw [if_pos hg]
    by_cases hyl : y.toNat < m.length
    · have h1 := zeroCount_set_row m y.toNat ((m.getD y.toNat []).set x.toNat v) hyl
      have h2 := countP_set_le (m.getD y.toNat []) x.toNat v hv
      omega
    · rw [List.set_eq_of_length_le (by omega)]
  · rw [if_neg hg]

theorem zeroCount_setCell_lt (m : List (List Nat)) (x y : Int) (v : Nat)
    (hv : v ≠ 0) (hx : 0 ≤ x) (hy : 0 ≤ y) (hyl : y.toNat < m.length)
    (hxl : x.toNat < (m.getD y.toNat []).length) (h0 : getCell m x y = 0) :
    zeroCount (setCell m x y v) < zeroCount m := by
  have h0' : (m.getD y.toNat []).getD x.toNat 0 = 0 := by
    unfold getCell at h0
    rwa [if_pos ⟨hx, hy⟩] at h0
  unfold setCell
  rw [if_pos ⟨hx, hy⟩]
  have h1 := zeroCount_set_row m y.toNat ((m.getD y.toNat []).set x.toNat v) hyl
  have h2 := countP_set_lt (m.getD y.toNat []) x.toNat v hv hxl h0'
  omega

theorem pushDirs_cons (x y : Int) (d : Nat) (t : List Nat)
    (ws : List (Int × Int × Nat)) :
    pushDirs x y (d :: t) ws = pushDirs x y t ((x, y, d) :: ws) := rfl

theorem pushDirs_length (x y : Int) (dirs : List Nat)
    (ws : List (Int × Int × Nat)) :
    (pushDirs x y dirs ws).length = dirs.length + ws.length := by
  induction dirs generalizing ws with
  | nil => simp [pushDirs]
  | cons d t ih =>
    rw [pushDirs_cons, ih]
    simp
    omega

theorem nextShuffle_len {sh : List (List Nat)} (hsh : shuffles4 sh) :
    (nextShuffle sh).1.length = 4 := by
  cases sh with
  | nil => rfl
  | cons s rest => exact hsh s (by simp [nextShuffle])

theorem nextShuffle_tail {sh : List (List Nat)} (hsh : shuffles4 sh) :
    shuffles4 (nextShuffle sh).2 := by
  cases sh with
  | nil => exact fun s hs => absurd hs (by simp [nextShuffle])
  | cons s rest => exact fun t ht => hsh t (by simp [nextShuffle] at ht ⊢; exact Or.inr ht)

theorem pushPaths_length (pp : List (Int × Int)) (ws : List (Int × Int × Nat))
    (sh : List (List Nat)) (hsh : shuffles4 sh) :
    (pushPaths pp ws sh).1.length = ws.length + 4 * pp.length := by
  induction pp generalizing ws sh with
  | nil => simp [pushPaths]
  | cons p rest ih =>
    unfold pushPaths
    rw [ih _ _ (nextShuffle_tail hsh), pushDirs_length, nextShuffle_len hsh]
    simp
    omega

theorem pushPaths_shuffles4 (pp : List (Int × Int)) (ws : List (Int × Int × Nat))
    (sh : List (List Nat)) (hsh : shuffles4 sh) :
    shuffles4 (pushPaths pp ws sh).2 := by
  induction pp generalizing ws sh with
  | nil => exact hsh
  | cons p rest ih => exact ih _ _ (nextShuffle_tail hsh)

theorem recordPath_length (ap : Bool) (paths : List (Int × Int)) (nX nY : Int) :
    (recordPath ap paths nX nY).length ≤ paths.length + 1 := by
  cases ap <;> simp [recordPath]

theorem moveTo_ne_pair {x y : Int} {d : Nat} (hd : d ∈ Dirs) :
    ¬((moveTo x y d).1 = x ∧ (moveTo x y d).2 = y) := by
  intro hc
  exact moveTo_ne_self hd (Prod.ext hc.1 hc.2)

theorem dimsOk_carve {w h : Int} {m : List (List Nat)} (x y : Int) (d : Nat)
    (hd : dimsOk w h m) : dimsOk w h (carve m x y d) :=
  dimsOk_setCell _ _ _ (dimsOk_setCell _ _ _ hd)

theorem getCell_carveBase {m : List (List Nat)} {x y : Int} {d : Nat}
    (hd : d ∈ Dirs) :
    getCell (setCell m x y (getCell m x y ||| d)) (moveTo x y d).1 (moveTo x y d).2 =
      getCell m (moveTo x y d).1 (moveTo x y d).2 :=
  getCell_setCell_ne _ (moveTo_ne_pair hd)

theorem zeroCount_carve_lt {w h : Int} {m : List (List Nat)} {x y : Int} {d : Nat}
    (hd : d ∈ Dirs) (hdims : dimsOk w h m)
    (hnb : inB w h (moveTo x y d).1 (moveTo x y d).2)
    (h0 : getCell m (moveTo x y d).1 (moveTo x y d).2 = 0) :
    zeroCount (carve m x y d) < zeroCount m := by
  have h1 : zeroCount (setCell m x y (getCell m x y ||| d)) ≤ zeroCount m :=
    zeroCount_setCell_le _ _ _ _ (lor_ne_zero_right (dir_ne_zero hd))
  have hdims1 : dimsOk w h (setCell m x y (getCell m x y ||| d)) :=
    dimsOk_setCell _ _ _ hdims
  have hrange := inB_range hdims1 hnb
  have h2 :
      zeroCount (carve m x y d) < zeroCount (setCell m x y (getCell m x y ||| d)) := by
    apply zeroCount_setCell_lt _ _ _ _
      (lor_ne_zero_right (dir_ne_zero (opp_mem_Dirs hd)))
      hrange.1 hrange.2.1 hrange.2.2.1 hrange.2.2.2
    rw [getCell_carveBase hd]
    exact h0
  omega

theorem genMeasure_genStep_lt {w h : Int}
    {pp : List (Int × Int) → List (Int × Int)}
    (hpp : ∀ l, (pp l).length = l.length) (st : GenState)
    (hsh : shuffles4 st.shuffles) (hdims : dimsOk w h st.maze)
    (hne : st.walls ≠ []) :
    genMeasure (genStep w h pp st) < genMeasure st := by
  obtain ⟨maze, walls, paths, ap, sh⟩ := st
  rcases walls with _ | ⟨⟨x, y, d⟩, rest⟩
  · exact absurd rfl hne
  simp only at hsh hdims
  by_cases hg : 0 ≤ (moveTo x y d).2 ∧ (moveTo x y d).2 < h ∧
      0 ≤ (moveTo x y d).1 ∧ (moveTo x y d).1 < w ∧
      getCell maze (moveTo x y d).1 (moveTo x y d).2 = 0
  · have hd : d ∈ Dirs := dir_mem_of_carve hg.1
    have hnb : inB w h (moveTo x y d).1 (moveTo x y d).2 :=
      ⟨hg.2.2.1, hg.2.2.2.1, hg.1, hg.2.1⟩
    have hzc : zeroCount (carve maze x y d) < zeroCount maze :=
      zeroCount_carve_lt hd hdims hnb hg.2.2.2.2
    by_cases hexit : (moveTo x y d).1 = w / 2 ∧ (moveTo x y d).2 = h - 1
    · simp only [genStep, if_pos hg, if_pos hexit, genMeasure]
      have h3 :
          zeroCount
            (setCell (carve maze x y d) (moveTo x y d).1 (moveTo x y d).2
              (getCell (carve maze x y d) (moveTo x y d).1 (moveTo x y d).2 ||| S)) ≤
            zeroCount (carve maze x y d) :=
        zeroCount_setCell_le _ _ _ _ (lor_ne_zero_right (by decide))
      have hlen :
          (pushPaths (pp (recordPath ap paths (moveTo x y d).1 (moveTo x y d).2))
            rest sh).1.length =
            rest.length +
              4 * (recordPath ap paths (moveTo x y d).1 (moveTo x y d).2).length := by
        rw [pushPaths_length _ _ _ hsh, hpp]
      have hrp := recordPath_length ap paths (moveTo x y d).1 (moveTo x y d).2
      simp only [List.length_cons, List.length_nil]
      omega
    · simp only [genStep, if_pos hg, if_neg hexit, genMeasure]
      have hlen :
          (pushDirs (redirectCell w h (moveTo x y d).1 (moveTo x y d).2).1
            (redirectCell w h (moveTo x y d).1 (moveTo x y d).2).2
            (nextShuffle sh).1 rest).length = 4 + rest.length := by
        rw [pushDirs_length, nextShuffle_len hsh]
      have hrp := recordPath_length ap paths (moveTo x y d).1 (moveTo x y d).2
      simp only [List.length_cons]
      omega
  · simp only [genStep, if_neg hg, genMeasure, List.length_cons]
    omega

theorem shuffles4_genStep {w h : Int} {pp : List (Int × Int) → List (Int × Int)}
    (st : GenState) (hsh : shuffles4 st.shuffles) :
    shuffles4 (genStep w h pp st).shuffles := by
  obtain ⟨maze, walls, paths, ap, sh⟩ := st
  rcases walls with _ | ⟨⟨x, y, d⟩, rest⟩
  · exact hsh
  simp only at hsh
  by_cases hg : 0 ≤ (moveTo x y d).2 ∧ (moveTo x y d).2 < h ∧
      0 ≤ (moveTo x y d).1 ∧ (moveTo x y d).1 < w ∧
      getCell maze (moveTo x y d).1 (moveTo x y d).2 = 0
  · by_cases hexit : (moveTo x y d).1 = w / 2 ∧ (moveTo x y d).2 = h - 1
    · simp only [genStep, if_pos hg, if_pos hexit]
      exact pushPaths_shuffles4 _ _ _ hsh
    · simp only [genStep, if_pos hg, if_neg hexit]
      exact nextShuffle_tail hsh
  · simp only [genStep, if_neg hg]
    exact hsh

theorem dimsOk_genStep {w h : Int} {pp : List (Int × Int) → List (Int × Int)}
    (st : GenState) (hdims : dimsOk w h st.maze) :
    dimsOk w h (genStep w h pp st).maze := by
  obtain ⟨maze, walls, paths, ap, sh⟩ := st
  rcases walls with _ | ⟨⟨x, y, d⟩, rest⟩
  · exact hdims
  simp only at hdims
  by_cases hg : 0 ≤ (moveTo x y d).2 ∧ (moveTo x y d).2 < h ∧
      0 ≤ (moveTo x y d).1 ∧ (moveTo x y d).1 < w ∧
      getCell maze (moveTo x y d).1 (moveTo x y d).2 = 0
  · by_cases hexit : (moveTo x y d).1 = w / 2 ∧ (moveTo x y d).2 = h - 1
    · simp only [genStep, if_pos hg, if_pos hexit]
      exact dimsOk_setCell _ _ _ (dimsOk_carve _ _ _ hdims)
    · simp only [genStep, if_pos hg, if_neg hexit]
      exact dimsOk_carve _ _ _ hdims
  · simp only [genStep, if_neg hg]
    exact hdims

theorem genLoop_walls_nil {w h : Int} {pp : List (Int × Int) → List (Int × Int)}
    (hpp : ∀ l, (pp l).length = l.length) :
    ∀ fuel (st : GenState), shuffles4 st.shuffles → dimsOk w h st.maze →
      genMeasure st ≤ fuel → (genLoop w h pp fuel st).walls = [] := by
  intro fuel
  induction fuel with
  | zero =>
    intro st _ _ hm
    have hw : st.walls = [] := by
      have : st.walls.length = 0 := by
        simp only [genMeasure] at hm
        omega
      exact List.length_eq_zero.1 this
    obtain ⟨maze, walls, paths, ap, sh⟩ := st
    simp only at hw
    subst hw
    rfl
  | succ n ih =>
    intro st hsh hdims hm
    obtain ⟨maze, walls, paths, ap, sh⟩ := st
    rcases walls with _ | ⟨⟨x, y, d⟩, rest⟩
    · rfl
    · have hlt :=
        genMeasure_genStep_lt hpp ⟨maze, (x, y, d) :: rest, paths, ap, sh⟩
          hsh hdims (by simp)
      exact ih _ (shuffles4_genStep _ hsh) (dimsOk_genStep _ hdims) (by omega)

theorem countP_zero_replicate (k : Nat) :
    (List.replicate k 0).countP (fun c => c == 0) = k := by
  induction k with
  | zero => rfl
  | succ n ih => simp [List.replicate_succ, List.countP_cons, ih]

theorem zeroCount_replicate (n k : Nat) :
    zeroCount (List.replicate n (List.replicate k 0)) = n * k := by
  induction n with
  | zero => simp [zeroCount]
  | succ j ih =>
    rw [List.replicate_succ, zeroCount_cons, ih, countP_zero_replicate]
    ring

theorem dimsOk_replicate (w h : Int) :
    dimsOk w h (List.replicate h.toNat (List.replicate w.toNat 0)) := by
  constructor
  · simp
  · intro i hi
    rw [List.getD_eq_getElem?_getD, List.getElem?_replicate, if_pos (by simpa using hi)]
    simp

theorem initState_walls_length {width height startX startY : Int}
    {shuffles : List (List Nat)} (hsh : shuffles4 shuffles) :
    (initState width height startX startY shuffles).walls.length = 8 := by
  simp only [initState]
  rw [pushDirs_length, pushDirs_length, nextShuffle_len hsh]
  simp

theorem genMeasure_initState {width height startX startY : Int}
    {shuffles : List (List Nat)} (hsh : shuffles4 shuffles) :
    genMeasure (initState width height startX startY shuffles) ≤
      genFuel width height := by
  simp only [genMeasure, genFuel]
  rw [initState_walls_length hsh]
  simp only [initState, zeroCount_replicate]
  simp
  have hc : height.toNat * width.toNat = width.toNat * height.toNat :=
    Nat.mul_comm _ _
  omega

/-! ## The passage-symmetry invariant through the loop -/

theorem getCell_zero_of_row_oob {m : List (List Nat)} {x y : Int}
    (hx : 0 ≤ x) (hy : 0 ≤ y) (hl : (m.getD y.toNat []).length ≤ x.toNat) :
    getCell m x y = 0 := by
  unfold getCell
  rw [if_pos ⟨hx, hy⟩, List.getD_eq_getElem?_getD,
    List.getElem?_eq_none (by omega)]
  rfl

theorem setCell_oob_y {m : List (List Nat)} {x y : Int} (v : Nat)
    (hl : m.length ≤ y.toNat) : setCell m x y v = m := by
  unfold setCell
  by_cases hg : 0 ≤ x ∧ 0 ≤ y
  · rw [if_pos hg, List.set_eq_of_length_le hl]
  · rw [if_neg hg]

theorem setCell_neg {m : List (List Nat)} {x y : Int} (v : Nat)
    (hg : ¬(0 ≤ x ∧ 0 ≤ y)) : setCell m x y v = m := by
  unfold setCell
  rw [if_neg hg]

theorem getCell_or_setCell_self (m : List (List Nat)) (x y : Int) (b : Nat) :
    getCell (setCell m x y (getCell m x y ||| b)) x y = getCell m x y ||| b ∨
    getCell (setCell m x y (getCell m x y ||| b)) x y = getCell m x y := by
  by_cases hg : 0 ≤ x ∧ 0 ≤ y
  · by_cases hyl : y.toNat < m.length
    · by_cases hxl : x.toNat < (m.getD y.toNat []).length
      · exact Or.inl (getCell_setCell_self _ hg.1 hg.2 hyl hxl)
      · right
        have hrow :
            ((setCell m x y (getCell m x y ||| b)).getD y.toNat []) =
              (m.getD y.toNat []).set x.toNat (getCell m x y ||| b) := by
          unfold setCell
          rw [if_pos hg, getD_set_self _ _ hyl]
        have hL : getCell (setCell m x y (getCell m x y ||| b)) x y = 0 := by
          apply getCell_zero_of_row_oob hg.1 hg.2
          rw [hrow, List.length_set]
          omega
        have hR : getCell m x y = 0 :=
          getCell_zero_of_row_oob hg.1 hg.2 (by omega)
        rw [hL, hR]
    · rw [setCell_oob_y _ (by omega)]
      exact Or.inr rfl
  · rw [setCell_neg _ hg]
    exact Or.inr rfl

theorem getCell_or_setCell_mono {m : List (List Nat)} {x y : Int} {b : Nat}
    (p q : Int) (e : Nat) (hbit : getCell m p q &&& e ≠ 0) :
    getCell (setCell m x y (getCell m x y ||| b)) p q &&& e ≠ 0 := by
  by_cases hpq : p = x ∧ q = y
  · obtain ⟨h1, h2⟩ := hpq
    subst h1
    subst h2
    rcases getCell_or_setCell_self m p q b with hv | hv
    · rw [hv]
      exact (or_and_ne_zero_iff _ _ _).2 (Or.inl hbit)
    · rw [hv]
      exact hbit
  · rw [getCell_setCell_ne _ hpq]
    exact hbit

theorem getCell_carve_mono {m : List (List Nat)} {x y : Int} {d : Nat}
    (p q : Int) (e : Nat) (hbit : getCell m p q &&& e ≠ 0) :
    getCell (carve m x y d) p q &&& e ≠ 0 :=
  getCell_or_setCell_mono p q e (getCell_or_setCell_mono p q e hbit)

theorem S_mem_Dirs : S ∈ Dirs := by decide

theorem carve_cellsBound {m : List (List Nat)} {x y : Int} {d : Nat}
    (hd : d ∈ Dirs) (hcb : cellsBound m) : cellsBound (carve m x y d) := by
  apply cellsBound_setCell
  · exact bits16_or_lt _ (getCell_lt16 (cellsBound_setCell
      (bits16_or_lt _ (getCell_lt16 hcb _ _) _ (dir_lt16 hd)) hcb) _ _) _
      (dir_lt16 (opp_mem_Dirs hd))
  · exact cellsBound_setCell
      (bits16_or_lt _ (getCell_lt16 hcb _ _) _ (dir_lt16 hd)) hcb

theorem getCell_carve_self {m : List (List Nat)} {x y : Int} {d : Nat}
    {w h : Int} (hd : d ∈ Dirs) (hdims : dimsOk w h m) (_hxy : inB w h x y)
    (hnb : inB w h (moveTo x y d).1 (moveTo x y d).2)
    (h0 : getCell m (moveTo x y d).1 (moveTo x y d).2 = 0) :
    getCell (carve m x y d) (moveTo x y d).1 (moveTo x y d).2 =
      oppositeDirections d := by
  have hdims1 : dimsOk w h (setCell m x y (getCell m x y ||| d)) :=
    dimsOk_setCell _ _ _ hdims
  have hr := inB_range hdims1 hnb
  unfold carve
  rw [getCell_setCell_self _ hr.1 hr.2.1 hr.2.2.1 hr.2.2.2,
    getCell_carveBase hd, h0, Nat.zero_or]

theorem getCell_carve_origin {m : List (List Nat)} {x y : Int} {d : Nat}
    {w h : Int} (hd : d ∈ Dirs) (hdims : dimsOk w h m) (hxy : inB w h x y) :
    getCell (carve m x y d) x y = getCell m x y ||| d := by
  have hr := inB_range hdims hxy
  unfold carve
  rw [getCell_setCell_ne _ (fun hc => moveTo_ne_pair hd ⟨hc.1.symm, hc.2.symm⟩),
    getCell_setCell_self _ hr.1 hr.2.1 hr.2.2.1 hr.2.2.2]

theorem getCell_carve_other {m : List (List Nat)} {x y : Int} {d : Nat}
    {p q : Int} (h1 : ¬(p = x ∧ q = y))
    (h2 : ¬(p = (moveTo x y d).1 ∧ q = (moveTo x y d).2)) :
    getCell (carve m x y d) p q = getCell m p q := by
  unfold carve
  rw [getCell_setCell_ne _ h2, getCell_setCell_ne _ h1]

theorem mazeInv_carve {w h : Int} {m : List (List Nat)} {x y : Int} {d : Nat}
    (hd : d ∈ Dirs) (hxy : inB w h x y)
    (hnb : inB w h (moveTo x y d).1 (moveTo x y d).2)
    (h0 : getCell m (moveTo x y d).1 (moveTo x y d).2 = 0)
    (hdims : dimsOk w h m) (_hcb : cellsBound m) (hinv : MazeInv w h m) :
    MazeInv w h (carve m x y d) := by
  intro x' y' e he hin hbit
  by_cases h1 : x' = (moveTo x y d).1 ∧ y' = (moveTo x y d).2
  · obtain ⟨hp, hq⟩ := h1
    subst hp
    subst hq
    rw [getCell_carve_self hd hdims hxy hnb h0] at hbit
    have he' : e = oppositeDirections d := dir_and_eq (opp_mem_Dirs hd) he hbit
    subst he'
    left
    rw [moveTo_opp hd]
    refine ⟨hxy, ?_⟩
    rw [opp_opp hd, getCell_carve_origin hd hdims hxy]
    exact (or_and_ne_zero_iff _ _ _).2 (Or.inr (dir_and_self hd))
  · by_cases h2 : x' = x ∧ y' = y
    · obtain ⟨hp, hq⟩ := h2
      subst hp
      subst hq
      rw [getCell_carve_origin hd hdims hxy] at hbit
      rcases (or_and_ne_zero_iff _ _ _).1 hbit with hold | hnew
      · rcases hinv x' y' e he hin hold with ⟨hib, hvb⟩ | hex
        · exact Or.inl ⟨hib, getCell_carve_mono _ _ _ hvb⟩
        · exact Or.inr hex
      · have he' : e = d := dir_and_eq hd he hnew
        subst he'
        left
        refine ⟨hnb, ?_⟩
        rw [getCell_carve_self hd hdims hxy hnb h0]
        exact dir_and_self (opp_mem_Dirs hd)
    · rw [getCell_carve_other h2 h1] at hbit
      rcases hinv x' y' e he hin hbit with ⟨hib, hvb⟩ | hex
      · exact Or.inl ⟨hib, getCell_carve_mono _ _ _ hvb⟩
      · exact Or.inr hex

theorem exit_inB {w h : Int} (hw : 1 ≤ w) (hh : 1 ≤ h) :
    inB w h (w / 2) (h - 1) := by
  refine ⟨by omega, by omega, by omega, by omega⟩

theorem entrance_inB {w h : Int} (hw : 1 ≤ w) (hh : 1 ≤ h) :
    inB w h (w / 2) 0 := by
  refine ⟨by omega, by omega, by omega, by omega⟩

theorem mazeInv_exitS {w h : Int} {m : List (List Nat)} (hw : 1 ≤ w)
    (hh : 1 ≤ h) (hdims : dimsOk w h m) (hinv : MazeInv w h m) :
    MazeInv w h
      (setCell m (w / 2) (h - 1) (getCell m (w / 2) (h - 1) ||| S)) := by
  have hex := exit_inB hw hh
  have hr := inB_range hdims hex
  intro x' y' e he hin hbit
  by_cases hp : x' = w / 2 ∧ y' = h - 1
  · obtain ⟨h1, h2⟩ := hp
    subst h1
    subst h2
    rw [getCell_setCell_self _ hr.1 hr.2.1 hr.2.2.1 hr.2.2.2] at hbit
    rcases (or_and_ne_zero_iff _ _ _).1 hbit with hold | hnew
    · rcases hinv (w / 2) (h - 1) e he hin hold with ⟨hib, hvb⟩ | hex'
      · exact Or.inl ⟨hib, getCell_or_setCell_mono _ _ _ hvb⟩
      · exact Or.inr hex'
    · have he' : e = S := dir_and_eq S_mem_Dirs he hnew
      exact Or.inr ⟨rfl, rfl, he'⟩
  · rw [getCell_setCell_ne _ hp] at hbit
    rcases hinv x' y' e he hin hbit with ⟨hib, hvb⟩ | hex'
    · exact Or.inl ⟨hib, getCell_or_setCell_mono _ _ _ hvb⟩
    · exact Or.inr hex'

theorem pushDirs_mem {x y : Int} {dirs : List Nat} {ws : List (Int × Int × Nat)}
    {e : Int × Int × Nat} (he : e ∈ pushDirs x y dirs ws) :
    e ∈ ws ∨ (e.1 = x ∧ e.2.1 = y) := by
  induction dirs generalizing ws with
  | nil => exact Or.inl he
  | cons d t ih =>
    rw [pushDirs_cons] at he
    rcases ih he with hm | hm
    · rcases List.mem_cons.1 hm with hm' | hm'
      · subst hm'
        exact Or.inr ⟨rfl, rfl⟩
      · exact Or.inl hm'
    · exact Or.inr hm

theorem wallsOk_pushDirs {w h x y : Int} {dirs : List Nat}
    {ws : List (Int × Int × Nat)} (hws : wallsOk w h ws) (hxy : inB w h x y) :
    wallsOk w h (pushDirs x y dirs ws) := by
  intro e he
  rcases pushDirs_mem he with hm | hm
  · exact hws e hm
  · rw [hm.1, hm.2]
    exact hxy

theorem wallsOk_pushPaths {w h : Int} {pp : List (Int × Int)}
    {ws : List (Int × Int × Nat)} {sh : List (List Nat)}
    (hws : wallsOk w h ws) (hpp : ∀ p ∈ pp, inB w h p.1 p.2) :
    wallsOk w h (pushPaths pp ws sh).1 := by
  induction pp generalizing ws sh with
  | nil => exact hws
  | cons p rest ih =>
    unfold pushPaths
    exact ih (wallsOk_pushDirs hws (hpp p (by simp)))
      (fun q hq => hpp q (by simp [hq]))

theorem redirectCell_inB {w h nX nY : Int} (hw : 1 ≤ w) (hh : 1 ≤ h)
    (hnb : inB w h nX nY) :
    inB w h (redirectCell w h nX nY).1 (redirectCell w h nX nY).2 := by
  unfold redirectCell
  by_cases hr : (w - 4 ≤ nX ∧ nX ≤ w - 2) ∧ (h - 4 ≤ nY ∧ nY ≤ h - 2)
  · rw [if_pos hr]
    exact entrance_inB hw hh
  · rw [if_neg hr]
    exact hnb

theorem pathsOk_recordPath {w h : Int} {ap : Bool} {paths : List (Int × Int)}
    {nX nY : Int} (hpo : pathsOk w h paths) (hnb : inB w h nX nY) :
    pathsOk w h (recordPath ap paths nX nY) := by
  intro p hp
  unfold recordPath at hp
  cases ap with
  | false => exact hpo p hp
  | true =>
    simp only [if_true] at hp
    rcases List.mem_append.1 hp with hm | hm
    · exact hpo p hm
    · have : p = (nX, nY) := by simpa using hm
      rw [this]
      exact hnb

theorem StateInv_genStep {w h : Int} {pp : List (Int × Int) → List (Int × Int)}
    (hw : 1 ≤ w) (hh : 1 ≤ h)
    (hppm : ∀ (l : List (Int × Int)) (p : Int × Int), p ∈ pp l → p ∈ l)
    (st : GenState) (hinv : StateInv w h st) : StateInv w h (genStep w h pp st) := by
  obtain ⟨maze, walls, paths, ap, sh⟩ := st
  obtain ⟨hdims, hcb, hws, hpo, hmi⟩ := hinv
  simp only at hdims hcb hws hpo hmi
  rcases walls with _ | ⟨⟨x, y, d⟩, rest⟩
  · exact ⟨hdims, hcb, hws, hpo, hmi⟩
  have hrest : wallsOk w h rest := fun e he => hws e (by simp [he])
  have hhead : inB w h x y := hws (x, y, d) (by simp)
  by_cases hg : 0 ≤ (moveTo x y d).2 ∧ (moveTo x y d).2 < h ∧
      0 ≤ (moveTo x y d).1 ∧ (moveTo x y d).1 < w ∧
      getCell maze (moveTo x y d).1 (moveTo x y d).2 = 0
  · have hd : d ∈ Dirs := dir_mem_of_carve hg.1
    have hnb : inB w h (moveTo x y d).1 (moveTo x y d).2 :=
      ⟨hg.2.2.1, hg.2.2.2.1, hg.1, hg.2.1⟩
    have hdimsc : dimsOk w h (carve maze x y d) := dimsOk_carve _ _ _ hdims
    have hcbc : cellsBound (carve maze x y d) := carve_cellsBound hd hcb
    have hmic : MazeInv w h (carve maze x y d) :=
      mazeInv_carve hd hhead hnb hg.2.2.2.2 hdims hcb hmi
    have hpoc : pathsOk w h (recordPath ap paths (moveTo x y d).1 (moveTo x y d).2) :=
      pathsOk_recordPath hpo hnb
    by_cases hexit : (moveTo x y d).1 = w / 2 ∧ (moveTo x y d).2 = h - 1
    · simp only [genStep, if_pos hg, if_pos hexit]
      refine ⟨?_, ?_, ?_, ?_, ?_⟩
      · exact dimsOk_setCell _ _ _ hdimsc
      · exact cellsBound_setCell
          (bits16_or_lt _ (getCell_lt16 hcbc _ _) _ (by decide)) hcbc
      · exact wallsOk_pushPaths hrest
          (fun p hp => hpoc p (hppm _ p hp))
      · exact fun p hp => absurd hp (List.not_mem_nil p)
      · rw [hexit.1, hexit.2]
        exact mazeInv_exitS hw hh hdimsc hmic
    · simp only [genStep, if_pos hg, if_neg hexit]
      exact ⟨hdimsc, hcbc,
        wallsOk_pushDirs hrest (redirectCell_inB hw hh hnb), hpoc, hmic⟩
  · simp only [genStep, if_neg hg]
    exact ⟨hdims, hcb, hrest, hpo, hmi⟩

theorem StateInv_genLoop {w h : Int} {pp : List (Int × Int) → List (Int × Int)}
    (hw : 1 ≤ w) (hh : 1 ≤ h)
    (hppm : ∀ (l : List (Int × Int)) (p : Int × Int), p ∈ pp l → p ∈ l) :
    ∀ (fuel : Nat) (st : GenState), StateInv w h st →
      StateInv w h (genLoop w h pp fuel st) := by
  intro fuel
  induction fuel with
  | zero => exact fun st hst => hst
  | succ n ih =>
    intro st hst
    obtain ⟨maze, walls, paths, ap, sh⟩ := st
    rcases walls with _ | ⟨wl, rest⟩
    · exact hst
    · exact ih _ (StateInv_genStep hw hh hppm _ hst)

theorem getD_replicate' {α : Type} (n : Nat) (a d : α) (i : Nat) :
    (List.replicate n a).getD i d = if i < n then a else d := by
  rw [List.getD_eq_getElem?_getD, List.getElem?_replicate]
  by_cases hi : i < n
  · rw [if_pos hi, if_pos hi]
    rfl
  · rw [if_neg hi, if_neg hi]
    rfl

theorem getCell_replicate (w h : Int) (x y : Int) :
    getCell (List.replicate h.toNat (List.replicate w.toNat 0)) x y = 0 := by
  unfold getCell
  by_cases hg : 0 ≤ x ∧ 0 ≤ y
  · rw [if_pos hg, getD_replicate']
    by_cases hy : y.toNat < h.toNat
    · rw [if_pos hy, getD_replicate']
      by_cases hx : x.toNat < w.toNat
      · rw [if_pos hx]
      · rw [if_neg hx]
    · rw [if_neg hy]
      rfl
  · rw [if_neg hg]

theorem cellsBound_replicate (w h : Int) :
    cellsBound (List.replicate h.toNat (List.replicate w.toNat 0)) := by
  intro i j
  rw [getD_replicate']
  by_cases hi : i < h.toNat
  · rw [if_pos hi, getD_replicate']
    by_cases hj : j < w.toNat
    · rw [if_pos hj]
      decide
    · rw [if_neg hj]
      decide
  · rw [if_neg hi]
    simp

theorem mazeInv_replicate (w h : Int) :
    MazeInv w h (List.replicate h.toNat (List.replicate w.toNat 0)) := by
  intro x y d _ _ hbit
  rw [getCell_replicate] at hbit
  exact absurd (Nat.zero_and d) hbit

theorem StateInv_initState {w h startX startY : Int} {shuffles : List (List Nat)}
    (hw : 1 ≤ w) (hh : 1 ≤ h) (hsx : 0 ≤ startX) (hsxw : startX < w)
    (hsy : 0 ≤ startY) (hsyh : startY < h) :
    StateInv w h (initState w h startX startY shuffles) := by
  refine ⟨dimsOk_replicate w h, cellsBound_replicate w h, ?_, ?_, mazeInv_replicate w h⟩
  · apply wallsOk_pushDirs
    · apply wallsOk_pushDirs
      · exact fun e he => absurd he (List.not_mem_nil e)
      · exact ⟨hsx, hsxw, hsy, hsyh⟩
    · exact entrance_inB hw hh
  · exact fun p hp => absurd hp (List.not_mem_nil p)

theorem StateInv_createMazeRun {w h startX startY : Int}
    {shuffles : List (List Nat)} {pp : List (Int × Int) → List (Int × Int)}
    (hw : 1 ≤ w) (hh : 1 ≤ h) (hsx : 0 ≤ startX) (hsxw : startX < w)
    (hsy : 0 ≤ startY) (hsyh : startY < h)
    (hppm : ∀ (l : List (Int × Int)) (p : Int × Int), p ∈ pp l → p ∈ l) :
    StateInv w h (createMazeRun w h startX startY shuffles pp) :=
  StateInv_genLoop hw hh hppm _ _
    (StateInv_initState hw hh hsx hsxw hsy hsyh)

/-! ## Structure of the rendered lines -/

theorem southChar_ne_bar (c : Nat) : southChar c ≠ '|' := by
  unfold southChar
  by_cases hc : c &&& S ≠ 0
  · rw [if_pos hc]
    decide
  · rw [if_neg hc]
    decide

theorem southChar_eq_underscore_iff (c : Nat) :
    southChar c = '_' ↔ c &&& S = 0 := by
  unfold southChar
  by_cases hc : c &&& S ≠ 0
  · rw [if_pos hc]
    constructor
    · intro hch
      exact absurd hch (by decide)
    · intro hz
      exact absurd hz hc
  · rw [if_neg hc]
    push_neg at hc
    exact ⟨fun _ => hc, fun _ => rfl⟩

theorem boundChar_eq_bar_iff (c n : Nat) : boundChar c n = '|' ↔ c &&& W = 0 := by
  unfold boundChar
  by_cases hc : c &&& W ≠ 0
  · rw [if_pos hc]
    constructor
    · intro hch
      by_cases hs : (c ||| n) &&& S ≠ 0
      · rw [if_pos hs] at hch
        exact absurd hch (by decide)
      · rw [if_neg hs] at hch
        exact absurd hch (by decide)
    · intro hz
      exact absurd hz hc
  · rw [if_neg hc]
    push_neg at hc
    exact ⟨fun _ => hc, fun _ => rfl⟩

theorem rowChars_length (row : List Nat) :
    (rowChars row).length = 2 * row.length := by
  induction row with
  | nil => rfl
  | cons c rest ih =>
    simp only [rowChars, List.length_cons, ih]
    omega

theorem formatLine_length (row : List Nat) :
    (formatLine row).length = 2 * row.length + 1 := by
  simp only [formatLine, List.length_cons, rowChars_length]

theorem topLine_length (w : Nat) (hw : 1 ≤ w) : (topLine w).length = 2 * w + 1 := by
  unfold topLine
  simp
  omega

theorem formatMaze_length (m : List (List Nat)) (w : Nat) :
    (formatMaze m w).length = m.length + 1 := by
  simp [formatMaze]

theorem rowChars_getD_even (row : List Nat) (x : Nat) (hx : x < row.length) :
    (rowChars row).getD (2 * x) ' ' = southChar (row.getD x 0) := by
  induction row generalizing x with
  | nil => simp at hx
  | cons c rest ih =>
    cases x with
    | zero => rfl
    | succ n =>
      have h2 : 2 * (n + 1) = (2 * n) + 1 + 1 := by omega
      rw [h2]
      simp only [rowChars, List.getD_cons_succ, List.getD_cons_succ]
      exact ih n (by simpa using hx)

theorem rowChars_getD_odd (row : List Nat) (x : Nat) (hx : x < row.length) :
    (rowChars row).getD (2 * x + 1) ' ' =
      boundChar (row.getD x 0) (row.getD (x + 1) 0) := by
  induction row generalizing x with
  | nil => simp at hx
  | cons c rest ih =>
    cases x with
    | zero =>
      simp only [rowChars, List.getD_cons_succ, List.getD_cons_zero]
      rfl
    | succ n =>
      have h2 : 2 * (n + 1) + 1 = (2 * n + 1) + 1 + 1 := by omega
      rw [h2]
      simp only [rowChars, List.getD_cons_succ]
      exact ih n (by simpa using hx)

theorem charAt_formatLine_zero (row : List Nat) :
    charAt (formatLine row) 0 = '|' := rfl

theorem charAt_formatLine_odd (row : List Nat) (x : Nat) (hx : x < row.length) :
    charAt (formatLine row) (2 * x + 1) = southChar (row.getD x 0) := by
  unfold charAt formatLine
  rw [List.getD_cons_succ]
  exact rowChars_getD_even row x hx

theorem charAt_formatLine_even (row : List Nat) (x : Nat) (hx : x < row.length) :
    charAt (formatLine row) (2 * x + 2) = boundChar (row.getD x 0) (row.getD (x + 1) 0) := by
  unfold charAt formatLine
  rw [List.getD_cons_succ]
  exact rowChars_getD_odd row x hx

theorem lineAt_formatMaze_zero (m : List (List Nat)) (w : Nat) :
    lineAt (formatMaze m w) 0 = some (topLine w) := by
  unfold lineAt formatMaze
  rw [List.getElem?_cons_zero]

theorem lineAt_formatMaze_succ (m : List (List Nat)) (w : Nat) (y : Nat)
    (hy : y < m.length) :
    lineAt (formatMaze m w) (y + 1) = some (formatLine (m.getD y [])) := by
  unfold lineAt formatMaze
  rw [List.getElem?_cons_succ, List.getElem?_map, List.getElem?_eq_getElem hy]
  have hD : m.getD y [] = m[y] := by
    rw [List.getD_eq_getElem?_getD, List.getElem?_eq_getElem hy]
    rfl
  rw [hD]
  rfl

theorem lineAt_none_iff (buf : List (List Char)) (i : Nat) :
    lineAt buf i = none ↔ buf.length ≤ i := by
  unfold lineAt
  exact List.getElem?_eq_none_iff

/-! ## The renderer/navigator round trip on invariant-satisfying grids -/

theorem moveTo_S (x y : Int) : moveTo x y S = (x, y + 1) := rfl

theorem moveTo_W (x y : Int) : moveTo x y W = (x + 1, y) := rfl

theorem opp_S : oppositeDirections S = N := rfl

theorem opp_W : oppositeDirections W = E := rfl

theorem W_mem_Dirs : W ∈ Dirs := by decide

theorem getCellN_cast (m : List (List Nat)) (x y : Nat) :
    getCell m (x : Int) (y : Int) = getCellN m x y := by
  unfold getCell getCellN
  rw [if_pos ⟨Int.natCast_nonneg x, Int.natCast_nonneg y⟩, Int.toNat_natCast,
    Int.toNat_natCast]

theorem inB_cast {w h x y : Nat} (hx : x < w) (hy : y < h) :
    inB (w : Int) (h : Int) (x : Int) (y : Int) :=
  ⟨Int.natCast_nonneg x, by exact_mod_cast hx, Int.natCast_nonneg y,
    by exact_mod_cast hy⟩

theorem dimsOk_len {w h : Nat} {m : List (List Nat)}
    (hd : dimsOk (w : Int) (h : Int) m) : m.length = h := by
  rw [hd.1, Int.toNat_natCast]

theorem dimsOk_row {w h : Nat} {m : List (List Nat)}
    (hd : dimsOk (w : Int) (h : Int) m) (y : Nat) (hy : y < h) :
    (m.getD y []).length = w := by
  have := hd.2 y (by rw [Int.toNat_natCast]; exact hy)
  rwa [Int.toNat_natCast] at this

theorem pairS {w h : Nat} {m : List (List Nat)}
    (hmi : MazeInv (w : Int) (h : Int) m) (a b : Nat) (ha : a < w)
    (hb : b + 1 < h) (hbit : getCellN m a b &&& S ≠ 0) :
    getCellN m a (b + 1) &&& N ≠ 0 := by
  have hres := hmi (a : Int) (b : Int) S S_mem_Dirs (inB_cast ha (by omega))
    (by rw [getCellN_cast]; exact hbit)
  simp only [moveTo_S] at hres
  rcases hres with ⟨_, hval⟩ | hex
  · have hc : ((b : Int) + 1) = ((b + 1 : Nat) : Int) := by push_cast; ring
    rw [hc, getCellN_cast, opp_S] at hval
    exact hval
  · exfalso
    have h2 := hex.2.1
    omega

theorem pairW {w h : Nat} {m : List (List Nat)}
    (hmi : MazeInv (w : Int) (h : Int) m) (a b : Nat) (ha : a + 1 < w)
    (hb : b < h) (hbit : getCellN m a b &&& W ≠ 0) :
    getCellN m (a + 1) b &&& E ≠ 0 := by
  have hres := hmi (a : Int) (b : Int) W W_mem_Dirs (inB_cast (by omega) hb)
    (by rw [getCellN_cast]; exact hbit)
  simp only [moveTo_W] at hres
  rcases hres with ⟨_, hval⟩ | hex
  · have hc : ((a : Int) + 1) = ((a + 1 : Nat) : Int) := by push_cast; ring
    rw [hc, getCellN_cast, opp_W] at hval
    exact hval
  · exact absurd hex.2.2 (by decide)

theorem openSouth_true_iff (m : List (List Nat)) (x y : Nat) :
    openSouth m x y = true ↔
      (getCellN m x y &&& S ≠ 0 ∧ getCellN m x (y + 1) &&& N ≠ 0) := by
  simp [openSouth, Bool.and_eq_true, bne_iff_ne]

theorem openEast_true_iff (m : List (List Nat)) (x y : Nat) :
    openEast m x y = true ↔
      (getCellN m x y &&& W ≠ 0 ∧ getCellN m (x + 1) y &&& E ≠ 0) := by
  simp [openEast, Bool.and_eq_true, bne_iff_ne]

theorem roundTrip_of_inv (w h : Nat) (m : List (List Nat)) (hw : 2 ≤ w)
    (_hh : 2 ≤ h) (hdims : dimsOk (w : Int) (h : Int) m)
    (hmi : MazeInv (w : Int) (h : Int) m) : RoundTrip w h m := by
  have hlen := dimsOk_len hdims
  intro x y hx hy
  have hrowx : ∀ b : Nat, b < h → ∀ a : Nat, a < w → a < (m.getD b []).length := by
    intro b hb a ha
    rw [dimsOk_row hdims b hb]
    exact ha
  have hlineAt : ∀ b : Nat, b < h →
      lineAt (formatMaze m w) (b + 1) = some (formatLine (m.getD b [])) :=
    fun b hb => lineAt_formatMaze_succ m w b (by omega)
  refine ⟨?_, ?_, ?_, ?_⟩
  · -- down
    intro hy1
    by_cases hS : getCellN m x y &&& S = 0
    · have hchar : charAt (formatLine (m.getD y [])) (2 * x + 1) = '_' := by
        rw [charAt_formatLine_odd _ x (hrowx y hy x hx)]
        exact (southChar_eq_underscore_iff _).2 hS
      have hnb : noWallBelow h (formatMaze m w) (2 * x + 1) (y + 1) =
          MoveStatus.blocked := by
        simp only [noWallBelow, hlineAt y hy]
        rw [if_pos hchar]
      have hmv : moveDown h (formatMaze m w) (2 * x + 1) (y + 1) =
          ((2 * x + 1, y + 1), MoveStatus.blocked) := by
        unfold moveDown
        rw [hnb]
      have hOS : openSouth m x y = false := by
        simp [openSouth, hS]
      rw [hmv]
      simp [hOS]
    · have hchar : charAt (formatLine (m.getD y [])) (2 * x + 1) ≠ '_' := by
        rw [charAt_formatLine_odd _ x (hrowx y hy x hx)]
        intro hcon
        exact hS ((southChar_eq_underscore_iff _).1 hcon)
      have hchar2 : charAt (formatLine (m.getD (y + 1) [])) (2 * x + 1) ≠ '|' := by
        rw [charAt_formatLine_odd _ x (hrowx (y + 1) hy1 x hx)]
        exact southChar_ne_bar _
      have hnb : noWallBelow h (formatMaze m w) (2 * x + 1) (y + 1) =
          MoveStatus.moved := by
        simp only [noWallBelow, hlineAt y hy, hlineAt (y + 1) hy1]
        rw [if_neg hchar, if_neg (show ¬ h < y + 1 + 1 by omega), if_neg hchar2]
      have hmv : moveDown h (formatMaze m w) (2 * x + 1) (y + 1) =
          ((2 * x + 1, y + 1 + 1), MoveStatus.moved) := by
        unfold moveDown
        rw [hnb]
      have hOS : openSouth m x y = true :=
        (openSouth_true_iff m x y).2 ⟨hS, pairS hmi x y hx hy1 hS⟩
      rw [hmv]
      simp [hOS]
  · -- up
    intro hy1
    have hyy : y - 1 + 1 = y := by omega
    have hline' : lineAt (formatMaze m w) y =
        some (formatLine (m.getD (y - 1) [])) := by
      have := hlineAt (y - 1) (by omega)
      rwa [hyy] at this
    have hsub : y + 1 - 1 = y := rfl
    by_cases hS : getCellN m x (y - 1) &&& S = 0
    · have hchar : charAt (formatLine (m.getD (y - 1) [])) (2 * x + 1) = '_' := by
        rw [charAt_formatLine_odd _ x (hrowx (y - 1) (by omega) x hx)]
        exact (southChar_eq_underscore_iff _).2 hS
      have hna : noWallAbove (formatMaze m w) (2 * x + 1) (y + 1) =
          MoveStatus.blocked := by
        simp only [noWallAbove, hsub, hline']
        rw [if_neg (Nat.succ_ne_zero y), if_pos (Or.inl hchar)]
      have hmv : moveUp (formatMaze m w) (2 * x + 1) (y + 1) =
          ((2 * x + 1, y + 1), MoveStatus.blocked) := by
        unfold moveUp
        rw [hna]
      have hOS : openSouth m x (y - 1) = false := by
        simp [openSouth, hS]
      rw [hmv]
      simp [hOS]
    · have hchar : ¬ (charAt (formatLine (m.getD (y - 1) [])) (2 * x + 1) = '_' ∨
          charAt (formatLine (m.getD (y - 1) [])) (2 * x + 1) = '|') := by
        rw [charAt_formatLine_odd _ x (hrowx (y - 1) (by omega) x hx)]
        rw [not_or]
        exact ⟨fun hcon => hS ((southChar_eq_underscore_iff _).1 hcon),
          southChar_ne_bar _⟩
      have hna : noWallAbove (formatMaze m w) (2 * x + 1) (y + 1) =
          MoveStatus.moved := by
        simp only [noWallAbove, hsub, hline']
        rw [if_neg (Nat.succ_ne_zero y), if_neg hchar]
      have hmv : moveUp (formatMaze m w) (2 * x + 1) (y + 1) =
          ((2 * x + 1, y + 1 - 1), MoveStatus.moved) := by
        unfold moveUp
        rw [hna]
      have hOS : openSouth m x (y - 1) = true := by
        rw [openSouth_true_iff]
        refine ⟨hS, ?_⟩
        rw [hyy]
        have := pairS hmi x (y - 1) hx (by omega) hS
        rwa [hyy] at this
      rw [hmv]
      simp [hOS]
  · -- right
    intro hx1
    have hbound : ¬ (2 * w - 1 < 2 * x + 1 + 1) := by omega
    by_cases hW : getCellN m x y &&& W = 0
    · have hchar : charAt (formatLine (m.getD y [])) (2 * x + 1 + 1) = '|' := by
        have h2 : 2 * x + 1 + 1 = 2 * x + 2 := rfl
        rw [h2, charAt_formatLine_even _ x (hrowx y hy x hx)]
        exact (boundChar_eq_bar_iff _ _).2 hW
      have hnr : noWallOnRight w (formatMaze m w) (2 * x + 1) (y + 1) =
          MoveStatus.blocked := by
        simp only [noWallOnRight, hlineAt y hy]
        rw [if_neg hbound, if_pos (Or.inr hchar)]
      have hmv : moveRight w (formatMaze m w) (2 * x + 1) (y + 1) =
          ((2 * x + 1, y + 1), MoveStatus.blocked) := by
        unfold moveRight
        rw [hnr]
      have hOE : openEast m x y = false := by
        simp [openEast, hW]
      rw [hmv]
      simp [hOE]
    · have hchar : ¬ ((y + 1 = 0 ∧
          charAt (formatLine (m.getD y [])) (2 * x + 1 + 1) = '_') ∨
          charAt (formatLine (m.getD y [])) (2 * x + 1 + 1) = '|') := by
        rw [not_or]
        constructor
        · intro hcon
          exact Nat.succ_ne_zero y hcon.1
        · have h2 : 2 * x + 1 + 1 = 2 * x + 2 := rfl
          rw [h2, charAt_formatLine_even _ x (hrowx y hy x hx)]
          intro hcon
          exact hW ((boundChar_eq_bar_iff _ _).1 hcon)
      have hnr : noWallOnRight w (formatMaze m w) (2 * x + 1) (y + 1) =
          MoveStatus.moved := by
        simp only [noWallOnRight, hlineAt y hy]
        rw [if_neg hbound, if_neg hchar]
      have hmv : moveRight w (formatMaze m w) (2 * x + 1) (y + 1) =
          ((2 * x + 1 + 1, y + 1), MoveStatus.moved) := by
        unfold moveRight
        rw [hnr]
      have hOE : openEast m x y = true :=
        (openEast_true_iff m x y).2 ⟨hW, pairW hmi x y hx1 hy hW⟩
      rw [hmv]
      simp [hOE]
  · -- left
    intro hx1
    have hxx : x - 1 + 1 = x := by omega
    have h2 : 2 * x + 1 - 1 = 2 * (x - 1) + 2 := by omega
    have hcharEq : charAt (formatLine (m.getD y [])) (2 * x + 1 - 1) =
        boundChar (getCellN m (x - 1) y) (getCellN m x y) := by
      rw [h2, charAt_formatLine_even _ (x - 1) (hrowx y hy (x - 1) (by omega))]
      rw [hxx]
      rfl
    by_cases hW : getCellN m (x - 1) y &&& W = 0
    · have hchar : charAt (formatLine (m.getD y [])) (2 * x + 1 - 1) = '|' := by
        rw [hcharEq]
        exact (boundChar_eq_bar_iff _ _).2 hW
      have hnl : noWallOnLeft (formatMaze m w) (2 * x + 1) (y + 1) =
          MoveStatus.blocked := by
        simp only [noWallOnLeft, hlineAt y hy]
        rw [if_neg (Nat.succ_ne_zero _), if_pos (Or.inr hchar)]
      have hmv : moveLeft (formatMaze m w) (2 * x + 1) (y + 1) =
          ((2 * x + 1, y + 1), MoveStatus.blocked) := by
        unfold moveLeft
        rw [hnl]
      have hOE : openEast m (x - 1) y = false := by
        simp [openEast, hW]
      rw [hmv]
      simp [hOE]
    · have hchar : ¬ ((y + 1 = 0 ∧
          charAt (formatLine (m.getD y [])) (2 * x + 1 - 1) = '_') ∨
          charAt (formatLine (m.getD y [])) (2 * x + 1 - 1) = '|') := by
        rw [not_or]
        constructor
        · intro hcon
          exact Nat.succ_ne_zero y hcon.1
        · rw [hcharEq]
          intro hcon
          exact hW ((boundChar_eq_bar_iff _ _).1 hcon)
      have hnl : noWallOnLeft (formatMaze m w) (2 * x + 1) (y + 1) =
          MoveStatus.moved := by
        simp only [noWallOnLeft, hlineAt y hy]
        rw [if_neg (Nat.succ_ne_zero _), if_neg hchar]
      have hmv : moveLeft (formatMaze m w) (2 * x + 1) (y + 1) =
          ((2 * x + 1 - 1, y + 1), MoveStatus.moved) := by
        unfold moveLeft
        rw [hnl]
      have hOE : openEast m (x - 1) y = true := by
        rw [openEast_true_iff]
        refine ⟨hW, ?_⟩
        rw [hxx]
        have := pairW hmi (x - 1) y (by omega) hy hW
        rwa [hxx] at this
      rw [hmv]
      simp [hOE]

/-! ## Navigator boundary and error behavior -/

theorem lineAt_oob {buf : List (List Char)} {i : Nat} (hi : buf.length ≤ i) :
    lineAt buf i = none :=
  (lineAt_none_iff buf i).2 hi

theorem moveUp_top (buf : List (List Char)) (cx : Nat) :
    moveUp buf cx 0 = ((cx, 0), MoveStatus.blocked) := by
  unfold moveUp noWallAbove
  rw [if_pos rfl]

theorem moveDown_fatal (mh : Nat) (buf : List (List Char)) (cx cy : Nat)
    (hcy : buf.length ≤ cy) :
    moveDown mh buf cx cy = ((cx, cy), MoveStatus.fatal) := by
  unfold moveDown noWallBelow
  rw [lineAt_oob hcy]

theorem moveUp_fatal (buf : List (List Char)) (cx cy : Nat) (hcy : 1 ≤ cy)
    (hbuf : buf.length ≤ cy - 1) :
    moveUp buf cx cy = ((cx, cy), MoveStatus.fatal) := by
  unfold moveUp noWallAbove
  rw [if_neg (by omega), lineAt_oob hbuf]

theorem moveRight_fatal (mw : Nat) (buf : List (List Char)) (cx cy : Nat)
    (hcx : ¬ (2 * mw - 1 < cx + 1)) (hcy : buf.length ≤ cy) :
    moveRight mw buf cx cy = ((cx, cy), MoveStatus.fatal) := by
  unfold moveRight noWallOnRight
  rw [if_neg hcx, lineAt_oob hcy]

theorem moveLeft_fatal (buf : List (List Char)) (cx cy : Nat) (hcx : cx ≠ 0)
    (hcy : buf.length ≤ cy) :
    moveLeft buf cx cy = ((cx, cy), MoveStatus.fatal) := by
  unfold moveLeft noWallOnLeft
  rw [if_neg hcx, lineAt_oob hcy]

theorem noWallOnRight_blocked_iff (mw : Nat) (buf : List (List Char))
    (cx cy : Nat) (hcy : cy < buf.length) :
    noWallOnRight mw buf cx cy = MoveStatus.blocked ↔
      (2 * mw - 1 < cx + 1 ∨ charAt (buf.getD cy []) (cx + 1) = '|' ∨
        (cy = 0 ∧ charAt (buf.getD cy []) (cx + 1) = '_')) := by
  have hline : lineAt buf cy = some (buf.getD cy []) := by
    unfold lineAt
    rw [List.getD_eq_getElem?_getD, List.getElem?_eq_getElem hcy]
    rfl
  unfold noWallOnRight
  by_cases hb : 2 * mw - 1 < cx + 1
  · rw [if_pos hb]
    simp [hb]
  · rw [if_neg hb, hline]
    simp only []
    by_cases hc : (cy = 0 ∧ charAt (buf.getD cy []) (cx + 1) = '_') ∨
        charAt (buf.getD cy []) (cx + 1) = '|'
    · rw [if_pos hc]
      simp only [true_iff]
      tauto
    · rw [if_neg hc]
      constructor
      · intro hcon
        exact absurd hcon (by decide)
      · intro hcon
        exact absurd (by tauto) hc

theorem noWallOnLeft_blocked_iff (buf : List (List Char)) (cx cy : Nat)
    (hcy : cy < buf.length) :
    noWallOnLeft buf cx cy = MoveStatus.blocked ↔
      (cx = 0 ∨ charAt (buf.getD cy []) (cx - 1) = '|' ∨
        (cy = 0 ∧ charAt (buf.getD cy []) (cx - 1) = '_')) := by
  have hline : lineAt buf cy = some (buf.getD cy []) := by
    unfold lineAt
    rw [List.getD_eq_getElem?_getD, List.getElem?_eq_getElem hcy]
    rfl
  unfold noWallOnLeft
  by_cases hb : cx = 0
  · rw [if_pos hb]
    simp [hb]
  · rw [if_neg hb, hline]
    simp only []
    by_cases hc : (cy = 0 ∧ charAt (buf.getD cy []) (cx - 1) = '_') ∨
        charAt (buf.getD cy []) (cx - 1) = '|'
    · rw [if_pos hc]
      simp only [true_iff]
      tauto
    · rw [if_neg hc]
      constructor
      · intro hcon
        exact absurd hcon (by decide)
      · intro hcon
        exact absurd (by tauto) hc

theorem moveRight_snd (mw : Nat) (buf : List (List Char)) (cx cy : Nat) :
    (moveRight mw buf cx cy).2 = noWallOnRight mw buf cx cy := by
  unfold moveRight
  rcases noWallOnRight mw buf cx cy with _ | _ | _ <;> rfl

theorem moveLeft_snd (buf : List (List Char)) (cx cy : Nat) :
    (moveLeft buf cx cy).2 = noWallOnLeft buf cx cy := by
  unfold moveLeft
  rcases noWallOnLeft buf cx cy with _ | _ | _ <;> rfl

theorem dimsOk_mem_rows {w h : Int} {m : List (List Nat)} (hd : dimsOk w h m) :
    ∀ row ∈ m, row.length = w.toNat := by
  intro row hrm
  obtain ⟨i, hi, hrow⟩ := List.mem_iff_getElem.1 hrm
  have hD : m.getD i [] = row := by
    rw [List.getD_eq_getElem?_getD, List.getElem?_eq_getElem hi]
    simp [hrow]
  rw [← hD]
  apply hd.2 i
  rw [← hd.1]
  exact hi

theorem createMaze_eq (width height startX startY : Int)
    (shuffles : List (List Nat)) (pathPerm : List (Int × Int) → List (Int × Int)) :
    createMaze width height startX startY shuffles pathPerm =
      (createMazeRun width height startX startY shuffles pathPerm).maze := rfl

/-! ## The claims -/

/-- C1: the specification asserts that every generated `w × h` grid carries
exactly `w*h - 1` carved undirected edges.  The code violates this: at the
concrete realizable random outcome `pocketShuffles` (width = height = 4,
starting cell (3, 3), identity path shuffle) the returned grid has only 12
open edges instead of `4*4 - 1 = 15` — the growth-point redirect near the
bottom-right corner drops the wall pushes of redirected cells and leaves a
pocket of unvisited cells — while the forced South opening of the exit cell
(2, 3) is present as the claim states. -/
theorem claim_C1_edge_count_bug :
    openEdgeCount (createMaze 4 4 3 3 pocketShuffles id) 4 4 = 12 ∧
    12 ≠ 4 * 4 - 1 ∧
    getCellN (createMaze 4 4 3 3 pocketShuffles id) 2 3 &&& S ≠ 0 := by decide

/-- C2: the specification asserts that a traversal of the carved passages
from the entrance `(w/2, 0)` reaches the exit and every other cell.  At the
same realizable oracle as C1, the exit (2, 3) is reached but cell (1, 1)
is not (it is never carved at all: its bitmask stays 0), so the passages do
not form a spanning tree over all 16 cells. -/
theorem claim_C2_unreachable_cell_bug :
    (1, 1) ∉ reachList (createMaze 4 4 3 3 pocketShuffles id) 4 4 ∧
    (2, 3) ∈ reachList (createMaze 4 4 3 3 pocketShuffles id) 4 4 ∧
    getCellN (createMaze 4 4 3 3 pocketShuffles id) 1 1 = 0 := by decide

/-- C3: for every generated grid, from the rendered cursor position of a
cell, each of the four navigator moves toward an adjacent in-grid cell
reports `moved` exactly when the grid encodes that edge as open (both facing
bits set), and `blocked` exactly when it does not. -/
theorem claim_C3_round_trip (w h : Nat) (startX startY : Int)
    (shuffles : List (List Nat)) (pathPerm : List (Int × Int) → List (Int × Int))
    (hw : 2 ≤ w) (hh : 2 ≤ h) (hsx : 0 ≤ startX) (hsxw : startX < (w : Int))
    (hsy : 0 ≤ startY) (hsyh : startY < (h : Int))
    (hppm : ∀ (l : List (Int × Int)) (p : Int × Int), p ∈ pathPerm l → p ∈ l) :
    RoundTrip w h (createMaze (w : Int) (h : Int) startX startY shuffles pathPerm) := by
  have hsi := @StateInv_createMazeRun (w : Int) (h : Int) startX startY shuffles
    pathPerm (by exact_mod_cast Nat.one_le_of_lt hw)
    (by exact_mod_cast Nat.one_le_of_lt hh) hsx hsxw hsy hsyh hppm
  exact roundTrip_of_inv w h _ hw hh hsi.1 hsi.2.2.2.2

/-- Witness for C3 at a concrete 2×2 generation. -/
theorem claim_C3_round_trip_witness :
    RoundTrip 2 2 (createMaze 2 2 0 0 [] id) :=
  claim_C3_round_trip 2 2 0 0 [] id (by norm_num) (by norm_num) (by norm_num)
    (by norm_num) (by norm_num) (by norm_num) (fun l p hp => hp)

/-- C4: the carving loop always terminates: with the provable iteration
budget `genFuel` the wall stack is fully drained, for every size, starting
cell and randomness oracle (each shuffle being a permutation of the four
directions and the path shuffle being length-preserving). -/
theorem claim_C4_terminates (width height startX startY : Int)
    (shuffles : List (List Nat)) (pathPerm : List (Int × Int) → List (Int × Int))
    (hpp : ∀ l, (pathPerm l).length = l.length)
    (hsh : ∀ s ∈ shuffles, s.length = 4) :
    (createMazeRun width height startX startY shuffles pathPerm).walls = [] := by
  apply genLoop_walls_nil hpp
  · exact nextShuffle_tail hsh
  · exact dimsOk_replicate width height
  · exact genMeasure_initState hsh

/-- Witness for C4 at the concrete 4×4 oracle. -/
theorem claim_C4_terminates_witness :
    (createMazeRun 4 4 3 3 pocketShuffles id).walls = [] :=
  claim_C4_terminates 4 4 3 3 pocketShuffles id (fun _ => rfl) (by decide)

/-- C5: a move up from the top row is an ordinary blocked move (no fatal
status is signalled), while any move whose required line read lies beyond
the buffer's actual line count signals the distinct fatal status 3 and
leaves the cursor unchanged. -/
theorem claim_C5_top_blocked_and_fatal (mw mh : Nat) (buf : List (List Char))
    (cx cy : Nat) :
    (moveUp buf cx 0 = ((cx, 0), MoveStatus.blocked) ∧
      statusGameSignal (moveUp buf cx 0).2 = none) ∧
    (buf.length ≤ cy →
      moveDown mh buf cx cy = ((cx, cy), MoveStatus.fatal) ∧
      statusGameSignal (moveDown mh buf cx cy).2 = some 3) ∧
    (1 ≤ cy → buf.length ≤ cy - 1 →
      moveUp buf cx cy = ((cx, cy), MoveStatus.fatal) ∧
      statusGameSignal (moveUp buf cx cy).2 = some 3) ∧
    (cx + 1 ≤ 2 * mw - 1 → buf.length ≤ cy →
      moveRight mw buf cx cy = ((cx, cy), MoveStatus.fatal) ∧
      statusGameSignal (moveRight mw buf cx cy).2 = some 3) ∧
    (1 ≤ cx → buf.length ≤ cy →
      moveLeft buf cx cy = ((cx, cy), MoveStatus.fatal) ∧
      statusGameSignal (moveLeft buf cx cy).2 = some 3) := by
  refine ⟨⟨moveUp_top buf cx, by rw [moveUp_top buf cx]; rfl⟩, ?_, ?_, ?_, ?_⟩
  · intro hcy
    have hmv := moveDown_fatal mh buf cx cy hcy
    exact ⟨hmv, by rw [hmv]; rfl⟩
  · intro hcy hbuf
    have hmv := moveUp_fatal buf cx cy hcy hbuf
    exact ⟨hmv, by rw [hmv]; rfl⟩
  · intro hcx hcy
    have hmv := moveRight_fatal mw buf cx cy (by omega) hcy
    exact ⟨hmv, by rw [hmv]; rfl⟩
  · intro hcx hcy
    have hmv := moveLeft_fatal buf cx cy (by omega) hcy
    exact ⟨hmv, by rw [hmv]; rfl⟩


/-- Witness for C5 at concrete buffers and cursors. -/
theorem claim_C5_top_blocked_and_fatal_witness :
    moveUp [[' ']] 7 0 = ((7, 0), MoveStatus.blocked) ∧
    moveDown 1 [[' ']] 0 5 = ((0, 5), MoveStatus.fatal) ∧
    moveUp [[' ']] 0 5 = ((0, 5), MoveStatus.fatal) ∧
    moveRight 1 [[' ']] 0 5 = ((0, 5), MoveStatus.fatal) ∧
    moveLeft [[' ']] 1 5 = ((1, 5), MoveStatus.fatal) :=
  ⟨(claim_C5_top_blocked_and_fatal 1 1 [[' ']] 7 0).1.1,
    ((claim_C5_top_blocked_and_fatal 1 1 [[' ']] 0 5).2.1 (by decide)).1,
    ((claim_C5_top_blocked_and_fatal 1 1 [[' ']] 0 5).2.2.1 (by decide) (by decide)).1,
    ((claim_C5_top_blocked_and_fatal 1 1 [[' ']] 0 5).2.2.2.1 (by decide) (by decide)).1,
    ((claim_C5_top_blocked_and_fatal 1 1 [[' ']] 1 5).2.2.2.2 (by decide) (by decide)).1⟩

/-- C6: for every `h × w` grid the renderer emits `h + 1` lines (one extra
top border line) and every line, the top border included, holds exactly
`2*w + 1` characters. -/
theorem claim_C6_rendered_dims (m : List (List Nat)) (w h : Nat) (hw : 1 ≤ w)
    (hlen : m.length = h) (hrow : ∀ row ∈ m, row.length = w) :
    (formatMaze m w).length = h + 1 ∧
    ∀ l ∈ formatMaze m w, l.length = 2 * w + 1 := by
  constructor
  · rw [formatMaze_length, hlen]
  · intro l hl
    simp only [formatMaze, List.mem_cons] at hl
    rcases hl with hl | hl
    · rw [hl]
      exact topLine_length w hw
    · obtain ⟨row, hrm, hrl⟩ := List.mem_map.1 hl
      rw [← hrl, formatLine_length, hrow row hrm]

/-- Witness for C6 at a concrete 1×1 grid. -/
theorem claim_C6_rendered_dims_witness :
    (formatMaze [[0]] 1).length = 1 + 1 ∧
    ∀ l ∈ formatMaze [[0]] 1, l.length = 2 * 1 + 1 :=
  claim_C6_rendered_dims [[0]] 1 1 (by decide) (by decide) (by decide)

/-- C7, counterexample: for the 5×5 maze generated at a concrete realizable
oracle the rendered lines do NOT each have length 9 (they have length 11),
refuting the claim as stated. -/
theorem claim_C7_counterexample :
    ¬ ((formatMaze (createMaze 5 5 0 0 [] id) 5).length = 6 ∧
      ∀ l ∈ formatMaze (createMaze 5 5 0 0 [] id) 5, l.length = 9) := by decide

/-- C7, amended: for every maze generated with width = height = 5 the
renderer emits 6 lines of length 11 (= 2*width + 1, not 2*width - 1 = 9),
and the top border is the underscore except a leading space and the
two spaces directly above the entrance cell (columns 5 and 6). -/
theorem claim_C7_amended (startX startY : Int) (shuffles : List (List Nat))
    (pathPerm : List (Int × Int) → List (Int × Int))
    (hsx : 0 ≤ startX) (hsxw : startX < 5) (hsy : 0 ≤ startY) (hsyh : startY < 5)
    (hppm : ∀ (l : List (Int × Int)) (p : Int × Int), p ∈ pathPerm l → p ∈ l) :
    (formatMaze (createMaze 5 5 startX startY shuffles pathPerm) 5).length = 6 ∧
    (∀ l ∈ formatMaze (createMaze 5 5 startX startY shuffles pathPerm) 5,
      l.length = 11) ∧
    (formatMaze (createMaze 5 5 startX startY shuffles pathPerm) 5).getD 0 [] =
      [' ', '_', '_', '_', '_', ' ', ' ', '_', '_', '_', '_'] := by
  have hsi := @StateInv_createMazeRun 5 5 startX startY shuffles pathPerm
    (by norm_num) (by norm_num) hsx hsxw hsy hsyh hppm
  have hdims := hsi.1
  rw [← createMaze_eq] at hdims
  have hlen : (createMaze 5 5 startX startY shuffles pathPerm).length = 5 := by
    rw [hdims.1]
    rfl
  have hrow := dimsOk_mem_rows hdims
  refine ⟨?_, ?_, ?_⟩
  · rw [formatMaze_length, hlen]
  · intro l hl
    simp only [formatMaze, List.mem_cons] at hl
    rcases hl with hl | hl
    · rw [hl]
      have := topLine_length 5 (by norm_num)
      omega
    · obtain ⟨row, hrm, hrl⟩ := List.mem_map.1 hl
      rw [← hrl, formatLine_length, hrow row hrm]
      rfl
  · simp only [formatMaze, List.getD_cons_zero]
    decide

/-- Witness for C7's amended claim at a concrete oracle. -/
theorem claim_C7_amended_witness :
    (formatMaze (createMaze 5 5 0 0 [] id) 5).length = 6 ∧
    (∀ l ∈ formatMaze (createMaze 5 5 0 0 [] id) 5, l.length = 11) ∧
    (formatMaze (createMaze 5 5 0 0 [] id) 5).getD 0 [] =
      [' ', '_', '_', '_', '_', ' ', ' ', '_', '_', '_', '_'] :=
  claim_C7_amended 0 0 [] id (by norm_num) (by norm_num) (by norm_num)
    (by norm_num) (fun l p hp => hp)

/-- C8: with the cursor's line inside the buffer, a move right is blocked
exactly when the cursor sits at the rightmost addressable column
(`cx + 1 > 2*w - 1`), or the character one column to the right is `'|'`, or
(on row 0 only) that character is `'_'`; a move left is blocked under the
symmetric conditions one column to the left, with the same row-0 case. -/
theorem claim_C8_sideways_rules (mw : Nat) (buf : List (List Char)) (cx cy : Nat)
    (hcy : cy < buf.length) :
    ((moveRight mw buf cx cy).2 = MoveStatus.blocked ↔
      (2 * mw - 1 < cx + 1 ∨ charAt (buf.getD cy []) (cx + 1) = '|' ∨
        (cy = 0 ∧ charAt (buf.getD cy []) (cx + 1) = '_'))) ∧
    ((moveLeft buf cx cy).2 = MoveStatus.blocked ↔
      (cx = 0 ∨ charAt (buf.getD cy []) (cx - 1) = '|' ∨
        (cy = 0 ∧ charAt (buf.getD cy []) (cx - 1) = '_'))) := by
  rw [moveRight_snd, moveLeft_snd]
  exact ⟨noWallOnRight_blocked_iff mw buf cx cy hcy,
    noWallOnLeft_blocked_iff buf cx cy hcy⟩

/-- Witness for C8 at a concrete two-line buffer. -/
theorem claim_C8_sideways_rules_witness :
    ((moveRight 1 [['|', '_', '|'], ['|', ' ', '|']] 0 1).2 = MoveStatus.blocked ↔
      (2 * 1 - 1 < 0 + 1 ∨
        charAt ([['|', '_', '|'], ['|', ' ', '|']].getD 1 []) (0 + 1) = '|' ∨
        ((1 : Nat) = 0 ∧
          charAt ([['|', '_', '|'], ['|', ' ', '|']].getD 1 []) (0 + 1) = '_'))) ∧
    ((moveLeft [['|', '_', '|'], ['|', ' ', '|']] 0 1).2 = MoveStatus.blocked ↔
      ((0 : Nat) = 0 ∨
        charAt ([['|', '_', '|'], ['|', ' ', '|']].getD 1 []) (0 - 1) = '|' ∨
        ((1 : Nat) = 0 ∧
          charAt ([['|', '_', '|'], ['|', ' ', '|']].getD 1 []) (0 - 1) = '_'))) :=
  claim_C8_sideways_rules 1 [['|', '_', '|'], ['|', ' ', '|']] 0 1 (by decide)

/-- C9: in every generated grid, every set direction bit of every cell
points at an in-grid neighbor (per the `moveTo` offset table) carrying the
opposite bit — except the forced South bit of the exit cell.  In particular
no boundary cell has a bit pointing outside the grid except the exit's
South bit. -/
theorem claim_C9_passage_symmetry (width height startX startY : Int)
    (shuffles : List (List Nat)) (pathPerm : List (Int × Int) → List (Int × Int))
    (hw : 1 ≤ width) (hh : 1 ≤ height) (hsx : 0 ≤ startX) (hsxw : startX < width)
    (hsy : 0 ≤ startY) (hsyh : startY < height)
    (hppm : ∀ (l : List (Int × Int)) (p : Int × Int), p ∈ pathPerm l → p ∈ l) :
    MazeInv width height (createMaze width height startX startY shuffles pathPerm) :=
  (StateInv_createMazeRun hw hh hsx hsxw hsy hsyh hppm).2.2.2.2

/-- Witness for C9 at a concrete 2×2 generation. -/
theorem claim_C9_passage_symmetry_witness :
    MazeInv 2 2 (createMaze 2 2 1 0 [] id) :=
  claim_C9_passage_symmetry 2 2 1 0 [] id (by norm_num) (by norm_num)
    (by norm_num) (by norm_num) (by norm_num) (by norm_num) (fun l p hp => hp)

/-- C10: in every generated grid no cell of the rightmost column has its
`W` bit set, so the renderer's unchecked read of `maze[y][x+1]` is always in
bounds, and consequently the last character of every rendered row line is
the vertical wall `'|'`. -/
theorem claim_C10_renderer_safety (w h : Nat) (startX startY : Int)
    (shuffles : List (List Nat)) (pathPerm : List (Int × Int) → List (Int × Int))
    (hw : 1 ≤ w) (hh : 1 ≤ h) (hsx : 0 ≤ startX) (hsxw : startX < (w : Int))
    (hsy : 0 ≤ startY) (hsyh : startY < (h : Int))
    (hppm : ∀ (l : List (Int × Int)) (p : Int × Int), p ∈ pathPerm l → p ∈ l) :
    RightColumnClosed (w : Int) (h : Int)
      (createMaze (w : Int) (h : Int) startX startY shuffles pathPerm) ∧
    RowLinesEndBar (createMaze (w : Int) (h : Int) startX startY shuffles pathPerm) w := by
  obtain ⟨hdims, hcb, hws, hpo, hmi⟩ := @StateInv_createMazeRun (w : Int) (h : Int)
    startX startY shuffles pathPerm (by exact_mod_cast hw) (by exact_mod_cast hh)
    hsx hsxw hsy hsyh hppm
  rw [← createMaze_eq] at hdims hcb hmi
  have hrc : RightColumnClosed (w : Int) (h : Int)
      (createMaze (w : Int) (h : Int) startX startY shuffles pathPerm) := by
    intro y hy0 hyh
    by_contra hbit
    have hw1 : (1 : Int) ≤ (w : Int) := by exact_mod_cast hw
    have hres := hmi ((w : Int) - 1) y W W_mem_Dirs
      ⟨by omega, by omega, hy0, hyh⟩ hbit
    rcases hres with ⟨hinb, _⟩ | hex
    · simp only [moveTo_W] at hinb
      have hlt := hinb.2.1
      omega
    · exact absurd hex.2.2 (by decide)
  refine ⟨hrc, ?_⟩
  intro i hi
  have hlen := dimsOk_len hdims
  have hih : i < h := by omega
  have hline : (formatMaze (createMaze (w : Int) (h : Int) startX startY shuffles
      pathPerm) w).getD (i + 1) [] =
      formatLine ((createMaze (w : Int) (h : Int) startX startY shuffles
        pathPerm).getD i []) := by
    have hl := lineAt_formatMaze_succ
      (createMaze (w : Int) (h : Int) startX startY shuffles pathPerm) w i (by omega)
    unfold lineAt at hl
    rw [List.getD_eq_getElem?_getD, hl]
    rfl
  rw [hline]
  have h2 : 2 * w = 2 * (w - 1) + 2 := by omega
  rw [h2, charAt_formatLine_even _ (w - 1)
    (by rw [dimsOk_row hdims i hih]; omega)]
  rw [boundChar_eq_bar_iff]
  have hcast : ((w : Int) - 1) = ((w - 1 : Nat) : Int) := by
    push_cast [hw]
    ring
  have := hrc (i : Int) (Int.natCast_nonneg i) (by exact_mod_cast hih)
  rwa [hcast, getCellN_cast] at this

/-- Witness for C10 at a concrete 2×2 generation. -/
theorem claim_C10_renderer_safety_witness :
    RightColumnClosed (2 : Int) (2 : Int) (createMaze 2 2 0 1 [] id) ∧
    RowLinesEndBar (createMaze 2 2 0 1 [] id) 2 :=
  claim_C10_renderer_safety 2 2 0 1 [] id (by norm_num) (by norm_num)
    (by norm_num) (by norm_num) (by norm_num) (by norm_num) (fun l p hp => hp)

end Gomazes
